import Mathlib

/-
Formal model of the model-relationship subsystem of the gara-be backend:
the relationship-type classifier (app/utils/relationship_types.py), the
model relationship graph (app/utils/model_relationship_manager.py), the
optimistic-lock validator
(app/repositories/core/optimistic_lock_validator.py) and the generic
repository engine (app/repositories/core/repository_impl.py).

Conventions of the embedding:
  * Python timestamps (datetime values) are represented by their number of
    microseconds since the epoch, as an Int.  Python datetimes have
    microsecond resolution, so `(a - b).total_seconds() > 1` holds exactly
    when the difference in microseconds exceeds 1000000.
  * JSON-ish payload values are represented by the inductive type `Value`;
    `Value.vtime t` stands for an ISO-8601 timestamp string whose parsed
    value is `t` microseconds (the only strings the repository ever feeds
    to `parse_timestamp`).  `isinstance(value, (dict, list))` corresponds
    to `Value.isComposite`.
  * Python dictionaries appear as association lists `List (String × Value)`
    in insertion order (Python dicts preserve insertion order and have
    pairwise distinct keys).
  * Recursive procedures are written with an explicit fuel argument so that
    every definition is structurally recursive and kernel-computable; the
    callers pick a fuel that is large enough, and the theorems that need it
    prove that the fuel never runs out.
-/

/-- The four application-level relationship kinds
(app/utils/relationship_types.py, class RelationshipType). -/
inductive RelationshipType where
  | ONE_TO_ONE
  | ONE_TO_MANY
  | MANY_TO_ONE
  | MANY_TO_MANY
deriving DecidableEq, Repr

/-- The three SQLAlchemy direction constants a RelationshipProperty can
carry (ONETOMANY, MANYTOONE, MANYTOMANY). -/
inductive SADirection where
  | ONETOMANY
  | MANYTOONE
  | MANYTOMANY
deriving DecidableEq, Repr

/-- The SQLALCHEMY_TO_APPLICATION lookup table of RelationshipAdapter
(relationship_types.py lines 42-46). -/
def sqlalchemy_to_application : SADirection → RelationshipType
  | .ONETOMANY => .ONE_TO_MANY
  | .MANYTOONE => .MANY_TO_ONE
  | .MANYTOMANY => .MANY_TO_MANY

/-- RelationshipAdapter.get_application_type (relationship_types.py lines
61-75): MANYTOONE with uselist = False is ONE_TO_ONE, everything else goes
through the SQLALCHEMY_TO_APPLICATION table. -/
def get_application_type (sqlalchemy_direction : SADirection) (uselist : Bool) :
    RelationshipType :=
  if sqlalchemy_direction = .MANYTOONE ∧ uselist = false then .ONE_TO_ONE
  else sqlalchemy_to_application sqlalchemy_direction

/-- A relationship edge of the model graph
(model_relationship_manager.py, dataclass RelationshipEdge). -/
structure RelationshipEdge where
  source_model : String
  target_model : String
  relationship_name : String
  relationship_type : RelationshipType
  back_populates : Option String := none
  foreign_key : Option String := none
  junction_table : Option String := none
  cascade_delete : Bool := false
  cascade_soft_delete : Bool := true
deriving DecidableEq, Repr

/-- RelationshipEdge._get_reverse_type (lines 105-113): the reverse_map
dictionary. -/
def get_reverse_type : RelationshipType → RelationshipType
  | .ONE_TO_ONE => .ONE_TO_ONE
  | .ONE_TO_MANY => .MANY_TO_ONE
  | .MANY_TO_ONE => .ONE_TO_MANY
  | .MANY_TO_MANY => .MANY_TO_MANY

/-- RelationshipEdge.is_bidirectional (lines 83-86). -/
def RelationshipEdge.is_bidirectional (e : RelationshipEdge) : Bool :=
  e.back_populates.isSome

/-- RelationshipEdge.get_reverse_edge (lines 88-103): None for a
unidirectional edge, otherwise the swapped edge. -/
def get_reverse_edge (e : RelationshipEdge) : Option RelationshipEdge :=
  match e.back_populates with
  | none => none
  | some b =>
    some { source_model := e.target_model
           target_model := e.source_model
           relationship_name := b
           relationship_type := get_reverse_type e.relationship_type
           back_populates := some e.relationship_name
           foreign_key := e.foreign_key
           junction_table := e.junction_table
           cascade_delete := e.cascade_delete
           cascade_soft_delete := e.cascade_soft_delete }

/-- Errors surfaced by the repository and validator.  `conflict` is the
HTTP 409 OptimisticLockConflict; every other failure is a `data` error
(invalid timestamp = HTTP 400, Python ValueError / TypeError, fuel
exhaustion of the embedding). -/
inductive DataErr where
  | invalidTimestamp
  | valueError (msg : String)
  | typeError
  | fuelOut
deriving DecidableEq, Repr

inductive RepoError where
  | conflict
  | data (e : DataErr)
deriving DecidableEq, Repr

/-- DefaultOptimisticLockValidator.validate_optimistic_lock
(optimistic_lock_validator.py lines 44-66) after parsing: raises the 409
conflict exactly when the absolute difference between the stored timestamp
and the parsed expected timestamp exceeds one second (1000000 microseconds);
`abs((actual_timestamp - expected_dt).total_seconds()) > 1`. -/
def validate_optimistic_lock (expected_dt actual_timestamp : Int) :
    Except RepoError Unit :=
  if (actual_timestamp - expected_dt).natAbs > 1000000 then .error .conflict
  else .ok ()

/-- C5: the optimistic-lock validator raises OptimisticLockConflict if and
only if the absolute difference between the parsed expected timestamp and
the actual stored timestamp exceeds 1 second; in particular a 0.5-second
difference never raises and a 2-second difference always raises. -/
theorem c5_validator_tolerance :
    (∀ expected actual : Int,
      validate_optimistic_lock expected actual = .error .conflict ↔
        1000000 < (actual - expected).natAbs) ∧
    (∀ t : Int,
      validate_optimistic_lock t (t + 500000) = .ok () ∧
      validate_optimistic_lock t (t + 2000000) = .error .conflict) := by
  constructor
  · intro expected actual
    unfold validate_optimistic_lock
    split
    · next h => simpa using h
    · next h => simpa using h
  · intro t
    constructor
    · unfold validate_optimistic_lock
      have h : ((t + 500000) - t).natAbs = 500000 := by omega
      simp [h]
    · unfold validate_optimistic_lock
      have h : ((t + 2000000) - t).natAbs = 2000000 := by omega
      simp [h]

/-- C6: the relationship classifier is a deterministic total function of
(direction hint, owner-side cardinality): MANYTOONE with a single-valued
owner side yields ONE_TO_ONE, MANYTOONE with a many-valued owner side
yields MANY_TO_ONE, ONETOMANY yields ONE_TO_MANY, and the junction-table
direction MANYTOMANY yields MANY_TO_MANY; two calls with identical inputs
always agree (the classifier is a pure function of its arguments). -/
theorem c6_classifier_cases :
    (∀ u, get_application_type .MANYTOONE false = .ONE_TO_ONE ∧
          get_application_type .MANYTOONE true = .MANY_TO_ONE ∧
          get_application_type .ONETOMANY u = .ONE_TO_MANY ∧
          get_application_type .MANYTOMANY u = .MANY_TO_MANY) ∧
    (∀ d u, get_application_type d u = get_application_type d u) := by
  constructor
  · intro u
    refine ⟨rfl, rfl, ?_, ?_⟩ <;> cases u <;> rfl
  · intro d u
    rfl

/-- C10: reversing a bidirectional edge swaps source and target, swaps
relationship_name with back_populates, maps the relationship type through
the involutive reverse_map (ONE_TO_MANY ↔ MANY_TO_ONE, the other two
fixed), preserves foreign-key, junction-table and cascade metadata, and is
self-inverse: reversing the reverse yields the original edge. -/
theorem c10_reverse_edge_involution (e : RelationshipEdge) (b : String)
    (hb : e.back_populates = some b) :
    ∃ r, get_reverse_edge e = some r ∧
      r.source_model = e.target_model ∧
      r.target_model = e.source_model ∧
      r.relationship_name = b ∧
      r.back_populates = some e.relationship_name ∧
      r.relationship_type = get_reverse_type e.relationship_type ∧
      r.foreign_key = e.foreign_key ∧
      r.junction_table = e.junction_table ∧
      r.cascade_delete = e.cascade_delete ∧
      r.cascade_soft_delete = e.cascade_soft_delete ∧
      get_reverse_edge r = some e := by
  obtain ⟨s, t, n, ty, bp, fk, jt, cd, csd⟩ := e
  simp only [RelationshipEdge.back_populates] at hb
  subst hb
  rw [get_reverse_edge]
  refine ⟨_, rfl, rfl, rfl, rfl, rfl, rfl, rfl, rfl, rfl, rfl, ?_⟩
  rw [get_reverse_edge]
  cases ty <;> rfl

/-- Closed instance of C10 at a concrete bidirectional edge. -/
theorem c10_reverse_edge_involution_witness :
    (RelationshipEdge.back_populates
      { source_model := "User", target_model := "Post",
        relationship_name := "posts",
        relationship_type := RelationshipType.ONE_TO_MANY,
        back_populates := some "user", foreign_key := some "posts.user_id" }
      = some "user") ∧
    ∃ r, get_reverse_edge
      { source_model := "User", target_model := "Post",
        relationship_name := "posts",
        relationship_type := RelationshipType.ONE_TO_MANY,
        back_populates := some "user", foreign_key := some "posts.user_id" }
      = some r ∧
      r.source_model = "Post" ∧
      r.target_model = "User" ∧
      r.relationship_name = "user" ∧
      r.back_populates = some "posts" ∧
      r.relationship_type = get_reverse_type RelationshipType.ONE_TO_MANY ∧
      r.foreign_key = some "posts.user_id" ∧
      r.junction_table = none ∧
      r.cascade_delete = false ∧
      r.cascade_soft_delete = true ∧
      get_reverse_edge r = some
      { source_model := "User", target_model := "Post",
        relationship_name := "posts",
        relationship_type := RelationshipType.ONE_TO_MANY,
        back_populates := some "user", foreign_key := some "posts.user_id" } :=
  ⟨rfl, c10_reverse_edge_involution _ "user" rfl⟩

/-- JSON-ish payload values; `vtime t` is an ISO-8601 timestamp string whose
parsed value is `t` microseconds, `vdict`/`vlist` are the composite values
(`isinstance(value, (dict, list))` in the source). -/
inductive Value where
  | vnull
  | vint (n : Int)
  | vstr (s : String)
  | vtime (t : Int)
  | vdict (entries : List (String × Value))
  | vlist (items : List Value)

/-- isinstance(value, (dict, list)). -/
def Value.isComposite : Value → Bool
  | .vdict _ => true
  | .vlist _ => true
  | _ => false

/-- A relationship descriptor as seen on a model node: the SQLAlchemy
direction constant, the uselist flag and the target model name
(rel_prop.direction, rel_prop.uselist, rel_prop.mapper.class_.__name__). -/
structure RelProp where
  direction : SADirection
  uselist : Bool
  target : String
deriving DecidableEq, Repr

/-- A node of the model graph (dataclass ModelNode): the model name, its
relationship dictionary, and the list of column names of the model's table
(child_model.__table__.columns in repository_impl.py). -/
structure ModelNode where
  model_name : String
  relationships : List (String × RelProp)
  columns : List String
deriving DecidableEq, Repr

/-- The model relationship manager after initialization: the node registry
(self._nodes, a dict keyed by model name) and the edge list (self._edges).
The adjacency lists of the source are keyed dicts built by appending each
edge to its source (forward) / target (reverse) bucket in edge order, so
they coincide with filtering the edge list. -/
structure ModelRelationshipManager where
  nodes : List (String × ModelNode)
  edges : List RelationshipEdge
deriving DecidableEq, Repr

/-- Python dict `.get` on an association list with string keys (first
binding wins; a well-formed dict has pairwise distinct keys). -/
def assoc_get {β : Type} (k : String) : List (String × β) → Option β
  | [] => none
  | (k1, v) :: rest => if k1 = k then some v else assoc_get k rest

/-- `key in dict` for an association list. -/
def assoc_mem {β : Type} (k : String) (l : List (String × β)) : Bool :=
  (assoc_get k l).isSome

/-- The registered model names (the key set of self._nodes). -/
def manager_keys (mgr : ModelRelationshipManager) : List String :=
  mgr.nodes.map Prod.fst

/-- ModelRelationshipManager.get_model_node (lines 271-281). -/
def get_model_node (mgr : ModelRelationshipManager) (model_name : String) :
    Option ModelNode :=
  assoc_get model_name mgr.nodes

/-- The relationship names of a node (node.relationships keys). -/
def rel_keys (node : ModelNode) : List String :=
  node.relationships.map Prod.fst

/-- The loop of validate_nested_data (lines 510-518): walk the payload in
order; a key that names a relationship goes to nested_data when its value
is a dict or a list and is silently dropped otherwise; every other key goes
to main_data. -/
def split_fields (node : ModelNode) :
    List (String × Value) → List (String × Value) × List (String × Value)
  | [] => ([], [])
  | (k, v) :: rest =>
    let mn := split_fields node rest
    if assoc_mem k node.relationships then
      if v.isComposite then (mn.1, (k, v) :: mn.2) else mn
    else ((k, v) :: mn.1, mn.2)

/-- ModelRelationshipManager.validate_nested_data (lines 492-520): raises
ValueError when the model is not registered, otherwise splits the payload
into (main_data, nested_data).  app/utils/model_utils.py lines 139-151
delegates to this function unchanged. -/
def validate_nested_data (mgr : ModelRelationshipManager) (model_name : String)
    (data : List (String × Value)) :
    Except RepoError (List (String × Value) × List (String × Value)) :=
  match get_model_node mgr model_name with
  | none => .error (.data (.valueError ("Model " ++ model_name ++ " not found")))
  | some node => .ok (split_fields node data)

theorem assoc_get_isSome_iff {β : Type} (k : String) (l : List (String × β)) :
    (assoc_get k l).isSome = true ↔ k ∈ l.map Prod.fst := by
  induction l with
  | nil => simp [assoc_get]
  | cons kv rest ih =>
    obtain ⟨k1, v⟩ := kv
    by_cases h : k1 = k
    · subst h
      simp [assoc_get]
    · simp [assoc_get, h, ih, Ne.symm h]

theorem assoc_mem_iff {β : Type} (k : String) (l : List (String × β)) :
    assoc_mem k l = true ↔ k ∈ l.map Prod.fst := by
  unfold assoc_mem
  exact assoc_get_isSome_iff k l

theorem mem_map_fst_iff {β : Type} (k : String) (l : List (String × β)) :
    k ∈ l.map Prod.fst ↔ ∃ v, (k, v) ∈ l := by
  constructor
  · intro h
    obtain ⟨⟨k1, v⟩, hmem, hk⟩ := List.mem_map.mp h
    simp only at hk
    subst hk
    exact ⟨v, hmem⟩
  · rintro ⟨v, hv⟩
    exact List.mem_map.mpr ⟨(k, v), hv, rfl⟩

theorem assoc_nodup_val_eq {β : Type} {data : List (String × β)}
    (h : (data.map Prod.fst).Nodup) {k : String} {v v' : β}
    (h1 : (k, v) ∈ data) (h2 : (k, v') ∈ data) : v = v' := by
  induction data with
  | nil => cases h1
  | cons kv rest ih =>
    obtain ⟨k1, w⟩ := kv
    simp only [List.map_cons, List.nodup_cons] at h
    rcases List.mem_cons.mp h1 with hc1 | hr1
    · rcases List.mem_cons.mp h2 with hc2 | hr2
      · rw [Prod.mk.injEq] at hc1 hc2
        rw [hc1.2, hc2.2]
      · exfalso
        apply h.1
        rw [Prod.mk.injEq] at hc1
        rw [← hc1.1]
        exact (mem_map_fst_iff k rest).mpr ⟨v', hr2⟩
    · rcases List.mem_cons.mp h2 with hc2 | hr2
      · exfalso
        apply h.1
        rw [Prod.mk.injEq] at hc2
        rw [← hc2.1]
        exact (mem_map_fst_iff k rest).mpr ⟨v, hr1⟩
      · exact ih h.2 hr1 hr2

theorem split_fields_eq_filters (node : ModelNode) (data : List (String × Value)) :
    split_fields node data =
      (data.filter (fun kv => !(assoc_mem kv.1 node.relationships)),
       data.filter (fun kv => assoc_mem kv.1 node.relationships && kv.2.isComposite)) := by
  induction data with
  | nil => rfl
  | cons kv rest ih =>
    obtain ⟨k, v⟩ := kv
    by_cases hmem : assoc_mem k node.relationships = true
    · by_cases hcomp : v.isComposite = true
      · simp [split_fields, ih, hmem, hcomp, List.filter_cons]
      · simp [split_fields, ih, hmem, hcomp, List.filter_cons]
    · simp [split_fields, ih, hmem, List.filter_cons]

/-- C7: for a registered entity type, the (main, nested) pair produced by
the nested-payload splitter partitions the payload: the key sets of the two
buckets are disjoint; a pair lands in nested exactly when its key names a
relationship and its value is composite; a pair lands in main exactly when
its key names no relationship; the union of the two key sets is exactly the
payload keys whose value is not a relationship-named scalar/null; and a
relationship-named key holding a scalar or null lands in neither bucket. -/
theorem c7_split_partition (mgr : ModelRelationshipManager) (m : String)
    (node : ModelNode) (data main nested : List (String × Value))
    (hm : get_model_node mgr m = some node)
    (hnodup : (data.map Prod.fst).Nodup)
    (hres : validate_nested_data mgr m data = .ok (main, nested)) :
    (∀ k, k ∈ main.map Prod.fst → k ∉ nested.map Prod.fst) ∧
    (∀ k v, (k, v) ∈ nested ↔
       (k, v) ∈ data ∧ k ∈ rel_keys node ∧ v.isComposite = true) ∧
    (∀ k v, (k, v) ∈ main ↔ (k, v) ∈ data ∧ k ∉ rel_keys node) ∧
    (∀ k, (k ∈ main.map Prod.fst ∨ k ∈ nested.map Prod.fst) ↔
       ∃ v, (k, v) ∈ data ∧ (k ∉ rel_keys node ∨ v.isComposite = true)) ∧
    (∀ k v, (k, v) ∈ data → k ∈ rel_keys node → v.isComposite = false →
       k ∉ main.map Prod.fst ∧ k ∉ nested.map Prod.fst) := by
  have hres2 : (Except.ok (split_fields node data) : Except RepoError _) = .ok (main, nested) := by
    rw [← hres]
    unfold validate_nested_data
    rw [hm]
  rw [split_fields_eq_filters] at hres2
  have hres' := (Except.ok.injEq _ _).mp hres2
  have hmain : main = data.filter (fun kv => !(assoc_mem kv.1 node.relationships)) :=
    (congrArg Prod.fst hres').symm
  have hnested : nested =
      data.filter (fun kv => assoc_mem kv.1 node.relationships && kv.2.isComposite) :=
    (congrArg Prod.snd hres').symm
  subst hmain hnested
  have hmemmain : ∀ k (v : Value),
      ((k, v) ∈ data.filter (fun kv => !(assoc_mem kv.1 node.relationships))) ↔
      ((k, v) ∈ data ∧ k ∉ rel_keys node) := by
    intro k v
    rw [List.mem_filter]
    unfold rel_keys
    rw [← assoc_mem_iff]
    simp
  have hmemnested : ∀ k (v : Value),
      ((k, v) ∈ data.filter
        (fun kv => assoc_mem kv.1 node.relationships && kv.2.isComposite)) ↔
      ((k, v) ∈ data ∧ k ∈ rel_keys node ∧ v.isComposite = true) := by
    intro k v
    rw [List.mem_filter]
    unfold rel_keys
    rw [← assoc_mem_iff]
    simp
  refine ⟨?_, fun k v => hmemnested k v, fun k v => hmemmain k v, ?_, ?_⟩
  · intro k hkm hkn
    obtain ⟨v, hv⟩ := (mem_map_fst_iff k _).mp hkm
    obtain ⟨v', hv'⟩ := (mem_map_fst_iff k _).mp hkn
    exact ((hmemmain k v).mp hv).2 ((hmemnested k v').mp hv').2.1
  · intro k
    constructor
    · rintro (hk | hk)
      · obtain ⟨v, hv⟩ := (mem_map_fst_iff k _).mp hk
        obtain ⟨hin, hrel⟩ := (hmemmain k v).mp hv
        exact ⟨v, hin, Or.inl hrel⟩
      · obtain ⟨v, hv⟩ := (mem_map_fst_iff k _).mp hk
        obtain ⟨hin, _, hco⟩ := (hmemnested k v).mp hv
        exact ⟨v, hin, Or.inr hco⟩
    · rintro ⟨v, hin, hrel | hco⟩
      · exact Or.inl ((mem_map_fst_iff k _).mpr ⟨v, (hmemmain k v).mpr ⟨hin, hrel⟩⟩)
      · by_cases hr : k ∈ rel_keys node
        · exact Or.inr ((mem_map_fst_iff k _).mpr ⟨v, (hmemnested k v).mpr ⟨hin, hr, hco⟩⟩)
        · exact Or.inl ((mem_map_fst_iff k _).mpr ⟨v, (hmemmain k v).mpr ⟨hin, hr⟩⟩)
  · intro k v hin hrel hco
    constructor
    · intro hk
      obtain ⟨v', hv'⟩ := (mem_map_fst_iff k _).mp hk
      exact ((hmemmain k v').mp hv').2 hrel
    · intro hk
      obtain ⟨v', hv'⟩ := (mem_map_fst_iff k _).mp hk
      obtain ⟨hin', _, hco'⟩ := (hmemnested k v').mp hv'
      rw [assoc_nodup_val_eq hnodup hin hin'] at hco
      rw [hco'] at hco
      cases hco

/-- Example registered model: User with a one-to-many `posts` relationship. -/
def exNodeUser : ModelNode :=
  { model_name := "User"
    relationships := [("posts", { direction := .ONETOMANY, uselist := true, target := "Post" })]
    columns := ["id", "username", "email", "created_at", "updated_at", "deleted_at"] }

/-- Example registered model: Post with a many-to-one `user` relationship. -/
def exNodePost : ModelNode :=
  { model_name := "Post"
    relationships := [("user", { direction := .MANYTOONE, uselist := false, target := "User" })]
    columns := ["id", "title", "user_id", "created_at", "updated_at", "deleted_at"] }

/-- Example edge User.posts -> Post. -/
def exEdgePosts : RelationshipEdge :=
  { source_model := "User", target_model := "Post", relationship_name := "posts"
    relationship_type := .ONE_TO_MANY, back_populates := some "user"
    foreign_key := some "posts.user_id", cascade_delete := true }

/-- Example edge Post.user -> User. -/
def exEdgeUser : RelationshipEdge :=
  { source_model := "Post", target_model := "User", relationship_name := "user"
    relationship_type := .MANY_TO_ONE, back_populates := some "posts"
    foreign_key := some "posts.user_id" }

/-- Example manager holding the User/Post graph. -/
def exMgr : ModelRelationshipManager :=
  { nodes := [("User", exNodeUser), ("Post", exNodePost)]
    edges := [exEdgePosts, exEdgeUser] }

/-- C2 counterexample: for an unregistered model name the splitter does not
return the payload as main data — it raises
ValueError("Model Ghost not found") (model_relationship_manager.py line
505), so it is not total on unknown entity types. -/
theorem c2_counterexample :
    validate_nested_data exMgr "Ghost" [("name", Value.vstr "x")] =
      .error (.data (.valueError "Model Ghost not found")) ∧
    validate_nested_data exMgr "Ghost" [("name", Value.vstr "x")] ≠
      .ok ([("name", Value.vstr "x")], []) := by
  refine ⟨rfl, ?_⟩
  intro h
  rw [show validate_nested_data exMgr "Ghost" [("name", Value.vstr "x")] =
      .error (.data (.valueError "Model Ghost not found")) from rfl] at h
  exact Except.noConfusion h

/-- C2 (amended): the nested-payload splitter is total for every registered
model name — it always returns a (main, nested) pair and never fails — but
for an unregistered model name it raises ValueError("Model m not found")
instead of returning the whole payload as main data. -/
theorem c2_splitter_totality (mgr : ModelRelationshipManager) (m : String)
    (data : List (String × Value)) :
    (∀ node, get_model_node mgr m = some node →
      ∃ main nested, validate_nested_data mgr m data = .ok (main, nested)) ∧
    (get_model_node mgr m = none →
      validate_nested_data mgr m data =
        .error (.data (.valueError ("Model " ++ m ++ " not found")))) := by
  constructor
  · intro node hm
    refine ⟨(split_fields node data).1, (split_fields node data).2, ?_⟩
    unfold validate_nested_data
    rw [hm]
  · intro hm
    unfold validate_nested_data
    rw [hm]

/-- Closed instance of the amended C2 at a concrete registered model. -/
theorem c2_splitter_totality_witness :
    (get_model_node exMgr "User" = some exNodeUser) ∧
    (∃ main nested,
      validate_nested_data exMgr "User" [("posts", Value.vnull)] = .ok (main, nested)) :=
  ⟨rfl, (c2_splitter_totality exMgr "User" [("posts", Value.vnull)]).1 exNodeUser rfl⟩

/-- Closed instance of C7 at a concrete payload: "username" and "email" go
to main, the composite "posts" goes to nested. -/
theorem c7_split_partition_witness :
    (get_model_node exMgr "User" = some exNodeUser) ∧
    ((([("username", Value.vstr "ann"), ("posts", Value.vlist []),
        ("email", Value.vnull)] : List (String × Value)).map Prod.fst).Nodup) ∧
    ((∀ k, k ∈ ([("username", Value.vstr "ann"), ("email", Value.vnull)] :
          List (String × Value)).map Prod.fst →
        k ∉ ([("posts", Value.vlist [])] : List (String × Value)).map Prod.fst) ∧
     (∀ k v, (k, v) ∈ ([("posts", Value.vlist [])] : List (String × Value)) ↔
        (k, v) ∈ ([("username", Value.vstr "ann"), ("posts", Value.vlist []),
          ("email", Value.vnull)] : List (String × Value)) ∧
          k ∈ rel_keys exNodeUser ∧ v.isComposite = true) ∧
     (∀ k v, (k, v) ∈ ([("username", Value.vstr "ann"), ("email", Value.vnull)] :
          List (String × Value)) ↔
        (k, v) ∈ ([("username", Value.vstr "ann"), ("posts", Value.vlist []),
          ("email", Value.vnull)] : List (String × Value)) ∧ k ∉ rel_keys exNodeUser) ∧
     (∀ k, (k ∈ ([("username", Value.vstr "ann"), ("email", Value.vnull)] :
          List (String × Value)).map Prod.fst ∨
        k ∈ ([("posts", Value.vlist [])] : List (String × Value)).map Prod.fst) ↔
        ∃ v, (k, v) ∈ ([("username", Value.vstr "ann"), ("posts", Value.vlist []),
          ("email", Value.vnull)] : List (String × Value)) ∧
          (k ∉ rel_keys exNodeUser ∨ v.isComposite = true)) ∧
     (∀ k v, (k, v) ∈ ([("username", Value.vstr "ann"), ("posts", Value.vlist []),
          ("email", Value.vnull)] : List (String × Value)) →
        k ∈ rel_keys exNodeUser → v.isComposite = false →
        k ∉ ([("username", Value.vstr "ann"), ("email", Value.vnull)] :
          List (String × Value)).map Prod.fst ∧
        k ∉ ([("posts", Value.vlist [])] : List (String × Value)).map Prod.fst)) :=
  ⟨rfl, by decide,
    c7_split_partition exMgr "User" exNodeUser
      [("username", Value.vstr "ann"), ("posts", Value.vlist []), ("email", Value.vnull)]
      [("username", Value.vstr "ann"), ("email", Value.vnull)]
      [("posts", Value.vlist [])]
      rfl (by decide) rfl⟩

/-- ModelRelationshipManager.get_outgoing_edges (lines 309-319): the forward
adjacency bucket of a model.  The source builds self._adjacency_list by
appending every edge to the bucket of its source model in edge order
(lines 265-269), so the bucket equals filtering the edge list by source. -/
def get_outgoing_edges (mgr : ModelRelationshipManager) (model_name : String) :
    List RelationshipEdge :=
  mgr.edges.filter (fun e => e.source_model = model_name)

/-- ModelRelationshipManager.get_incoming_edges (lines 321-331): the reverse
adjacency bucket (self._reverse_adjacency_list), keyed by target model. -/
def get_incoming_edges (mgr : ModelRelationshipManager) (model_name : String) :
    List RelationshipEdge :=
  mgr.edges.filter (fun e => e.target_model = model_name)

/-- The edge-processing step of one BFS iteration (the for-loop of
find_path, lines 358-366): walk the outgoing edges of the current model in
registration order; an edge into the target returns the finished path; an
edge into an unvisited model marks it visited and appends a queue entry. -/
def process_edges (target : String) (path : List RelationshipEdge) :
    List RelationshipEdge → List String → List (String × List RelationshipEdge) →
    Sum (List RelationshipEdge) (List String × List (String × List RelationshipEdge))
  | [], visited, queue => .inr (visited, queue)
  | e :: es, visited, queue =>
    if e.target_model = target then .inl (path ++ [e])
    else if e.target_model ∈ visited then process_edges target path es visited queue
    else process_edges target path es (visited ++ [e.target_model])
           (queue ++ [(e.target_model, path ++ [e])])

/-- The BFS while-loop of find_path (lines 355-368):
`while queue and len(queue[0][1]) < max_depth`, pop left, process the
outgoing edges, loop.  The fuel argument makes the recursion structural;
find_path passes a fuel that the loop can never exhaust (each iteration
pops one entry and enqueues one entry per newly visited model, so the
number of iterations is bounded by the number of edge targets plus one). -/
def bfs_loop (mgr : ModelRelationshipManager) (target : String) (max_depth : Nat) :
    Nat → List (String × List RelationshipEdge) → List String →
    Option (List RelationshipEdge)
  | 0, _, _ => none
  | fuel + 1, queue, visited =>
    match queue with
    | [] => none
    | (current_model, path) :: rest =>
      if path.length < max_depth then
        match process_edges target path (get_outgoing_edges mgr current_model)
            visited rest with
        | .inl found => some found
        | .inr (visited2, queue2) => bfs_loop mgr target max_depth fuel queue2 visited2
      else none

/-- ModelRelationshipManager.find_path (lines 333-368): None when either
endpoint is unregistered, the empty path when source equals target,
otherwise BFS over forward adjacency. -/
def find_path (mgr : ModelRelationshipManager)
    (source_model target_model : String) (max_depth : Nat) :
    Option (List RelationshipEdge) :=
  if source_model ∈ manager_keys mgr ∧ target_model ∈ manager_keys mgr then
    if source_model = target_model then some []
    else bfs_loop mgr target_model max_depth (mgr.edges.length + 2)
      [(source_model, [])] [source_model]
  else none

/-- `is_edge_path mgr s p t`: the edge list p is a genuine directed path of
the graph from s to t (each edge belongs to the edge list, consecutive
edges are source-to-target adjacent). -/
def is_edge_path (mgr : ModelRelationshipManager) :
    String → List RelationshipEdge → String → Prop
  | s, [], t => s = t
  | s, e :: p, t =>
    e ∈ mgr.edges ∧ e.source_model = s ∧ is_edge_path mgr e.target_model p t

theorem is_edge_path_append (mgr : ModelRelationshipManager) {s n : String}
    {p : List RelationshipEdge} (hp : is_edge_path mgr s p n)
    {e : RelationshipEdge} (he : e ∈ mgr.edges) (hs : e.source_model = n) :
    is_edge_path mgr s (p ++ [e]) e.target_model := by
  induction p generalizing s with
  | nil =>
    cases hp
    exact ⟨he, hs, rfl⟩
  | cons f fs ih =>
    obtain ⟨hf, hfs, hrest⟩ := hp
    exact ⟨hf, hfs, ih hrest⟩

theorem is_edge_path_concat (mgr : ModelRelationshipManager) {s t : String}
    {q : List RelationshipEdge} (h : is_edge_path mgr s q t) (hq : q ≠ []) :
    ∃ q' e, q = q' ++ [e] ∧ is_edge_path mgr s q' e.source_model ∧
      e ∈ mgr.edges ∧ e.target_model = t := by
  induction q generalizing s with
  | nil => exact absurd rfl hq
  | cons f fs ih =>
    obtain ⟨hf, hfs, hrest⟩ := h
    by_cases hfs' : fs = []
    · subst hfs'
      cases hrest
      exact ⟨[], f, rfl, hfs.symm, hf, rfl⟩
    · obtain ⟨q', e, heq, hpath, he, htgt⟩ := ih hrest hfs'
      exact ⟨f :: q', e, by rw [heq]; rfl, ⟨hf, hfs, hpath⟩, he, htgt⟩

theorem no_path_of_all_closed (mgr : ModelRelationshipManager)
    (visited : List String) (target : String)
    (hcl : ∀ v ∈ visited, ∀ e ∈ mgr.edges, e.source_model = v →
      e.target_model ∈ visited ∧ e.target_model ≠ target) :
    ∀ (q : List RelationshipEdge) (s : String), s ∈ visited → s ≠ target →
      ¬ is_edge_path mgr s q target := by
  intro q
  induction q with
  | nil =>
    intro s _ hne h
    exact hne h
  | cons e es ih =>
    intro s hs hne h
    obtain ⟨he, hsrc, hrest⟩ := h
    obtain ⟨hvis, hnet⟩ := hcl s hs e he hsrc
    exact ih e.target_model hvis hnet hrest

theorem process_edges_spec (target : String) (path : List RelationshipEdge) :
    ∀ (es : List RelationshipEdge) (visited : List String)
      (queue : List (String × List RelationshipEdge)),
    (∀ found, process_edges target path es visited queue = .inl found →
       ∃ e, e ∈ es ∧ e.target_model = target ∧ found = path ++ [e]) ∧
    (∀ visited2 queue2,
       process_edges target path es visited queue = .inr (visited2, queue2) →
       ∃ news : List (String × List RelationshipEdge),
         visited2 = visited ++ news.map Prod.fst ∧
         queue2 = queue ++ news ∧
         (news.map Prod.fst).Nodup ∧
         (∀ n ∈ news.map Prod.fst, n ∉ visited) ∧
         (∀ n p, (n, p) ∈ news →
            ∃ e, e ∈ es ∧ e.target_model = n ∧ n ≠ target ∧ p = path ++ [e]) ∧
         (∀ e ∈ es, e.target_model ≠ target ∧ e.target_model ∈ visited2)) := by
  intro es
  induction es with
  | nil =>
    intro visited queue
    constructor
    · intro found h
      exact Sum.noConfusion h
    · intro visited2 queue2 h
      rw [process_edges] at h
      obtain ⟨h1, h2⟩ := Prod.mk.injEq .. ▸ Sum.inr.injEq .. ▸ h
      refine ⟨[], by simp [← h1], by simp [← h2], by simp, by simp, by simp, by simp⟩
  | cons e es ih =>
    intro visited queue
    by_cases ht : e.target_model = target
    · constructor
      · intro found h
        rw [process_edges, if_pos ht] at h
        exact ⟨e, List.mem_cons_self .., ht, (Sum.inl.injEq .. ▸ h).symm⟩
      · intro visited2 queue2 h
        rw [process_edges, if_pos ht] at h
        exact Sum.noConfusion h
    · by_cases hv : e.target_model ∈ visited
      · constructor
        · intro found h
          rw [process_edges, if_neg ht, if_pos hv] at h
          obtain ⟨f, hf, hft, hfound⟩ := (ih visited queue).1 found h
          exact ⟨f, List.mem_cons_of_mem _ hf, hft, hfound⟩
        · intro visited2 queue2 h
          rw [process_edges, if_neg ht, if_pos hv] at h
          obtain ⟨news, h1, h2, h3, h4, h5, h6⟩ := (ih visited queue).2 visited2 queue2 h
          refine ⟨news, h1, h2, h3, h4, ?_, ?_⟩
          · intro n p hp
            obtain ⟨f, hf, hft, hne, hpeq⟩ := h5 n p hp
            exact ⟨f, List.mem_cons_of_mem _ hf, hft, hne, hpeq⟩
          · intro f hf
            rcases List.mem_cons.mp hf with hfe | hfe
            · subst hfe
              exact ⟨ht, by rw [h1]; exact List.mem_append_left _ hv⟩
            · exact h6 f hfe
      · constructor
        · intro found h
          rw [process_edges, if_neg ht, if_neg hv] at h
          obtain ⟨f, hf, hft, hfound⟩ :=
            (ih (visited ++ [e.target_model])
              (queue ++ [(e.target_model, path ++ [e])])).1 found h
          exact ⟨f, List.mem_cons_of_mem _ hf, hft, hfound⟩
        · intro visited2 queue2 h
          rw [process_edges, if_neg ht, if_neg hv] at h
          obtain ⟨news, h1, h2, h3, h4, h5, h6⟩ :=
            (ih (visited ++ [e.target_model])
              (queue ++ [(e.target_model, path ++ [e])])).2 visited2 queue2 h
          refine ⟨(e.target_model, path ++ [e]) :: news, ?_, ?_, ?_, ?_, ?_, ?_⟩
          · rw [h1]
            simp
          · rw [h2]
            simp
          · simp only [List.map_cons, List.nodup_cons]
            refine ⟨?_, h3⟩
            intro hc
            exact (h4 _ hc) (List.mem_append_right _ (List.mem_singleton.mpr rfl))
          · intro n hn
            rcases List.mem_cons.mp hn with hne | hne
            · rw [hne]
              exact hv
            · intro hc
              exact (h4 n hne) (List.mem_append_left _ hc)
          · intro n p hp
            rcases List.mem_cons.mp hp with hpe | hpe
            · obtain ⟨hn, hpq⟩ := Prod.mk.injEq .. ▸ hpe
              exact ⟨e, List.mem_cons_self .., hn.symm, hn ▸ ht, hpq⟩
            · obtain ⟨f, hf, hft, hne, hpeq⟩ := h5 n p hpe
              exact ⟨f, List.mem_cons_of_mem _ hf, hft, hne, hpeq⟩
          · intro f hf
            rcases List.mem_cons.mp hf with hfe | hfe
            · subst hfe
              refine ⟨ht, ?_⟩
              rw [h1]
              exact List.mem_append_left _
                (List.mem_append_right _ (List.mem_singleton.mpr rfl))
            · exact h6 f hfe

theorem sdiff_card_append (U : Finset String) (visited news : List String)
    (hnodup : news.Nodup) (hfresh : ∀ n ∈ news, n ∉ visited)
    (hsub : ∀ n ∈ news, n ∈ U) :
    (U \ (visited ++ news).toFinset).card + news.length =
    (U \ visited.toFinset).card := by
  rw [List.toFinset_append]
  have hsplit : U \ (visited.toFinset ∪ news.toFinset) =
      (U \ visited.toFinset) \ news.toFinset := by
    ext x
    simp only [Finset.mem_sdiff, Finset.mem_union]
    tauto
  rw [hsplit]
  have hsubd : news.toFinset ⊆ U \ visited.toFinset := by
    intro n hn
    rw [List.mem_toFinset] at hn
    rw [Finset.mem_sdiff, List.mem_toFinset]
    exact ⟨hsub n hn, hfresh n hn⟩
  rw [Finset.card_sdiff hsubd, List.toFinset_card_of_nodup hnodup]
  have hle : news.length ≤ (U \ visited.toFinset).card := by
    rw [← List.toFinset_card_of_nodup hnodup]
    exact Finset.card_le_card hsubd
  omega

/-- The termination measure of the BFS loop: unvisited possible targets
plus queue length; it strictly decreases on every iteration. -/
def bfs_measure (mgr : ModelRelationshipManager)
    (queue : List (String × List RelationshipEdge)) (visited : List String) : Nat :=
  ((mgr.edges.map (fun e => e.target_model)).toFinset \ visited.toFinset).card
    + queue.length

/-- Length of the path stored in the front queue entry (len(queue[0][1])),
0 for an empty queue. -/
def len_front (queue : List (String × List RelationshipEdge)) : Nat :=
  match queue with
  | [] => 0
  | (_, p) :: _ => p.length

/-- The invariant of the BFS loop of find_path.  Every queue entry carries a
genuine path to its node; queued nodes are visited, distinct and differ
from the target; the queue is sorted by path length and spans at most two
consecutive levels; every queued path is a shortest path to its node; every
visited node that is no longer queued has all its successors visited and
none of them is the target; and every node reachable strictly below the
front level is already visited. -/
structure BfsInv (mgr : ModelRelationshipManager) (source target : String)
    (queue : List (String × List RelationshipEdge)) (visited : List String) :
    Prop where
  path_ok : ∀ n p, (n, p) ∈ queue → is_edge_path mgr source p n
  node_vis : ∀ n p, (n, p) ∈ queue → n ∈ visited
  node_ne : ∀ n p, (n, p) ∈ queue → n ≠ target
  nodes_nodup : (queue.map Prod.fst).Nodup
  vis_nodup : visited.Nodup
  src_vis : source ∈ visited
  tgt_nvis : target ∉ visited
  sorted : (queue.map (fun q => q.2.length)).Pairwise (· ≤ ·)
  two_level : ∀ n p, (n, p) ∈ queue → p.length ≤ len_front queue + 1
  shortest : ∀ n p, (n, p) ∈ queue →
    ∀ q, is_edge_path mgr source q n → p.length ≤ q.length
  closed : ∀ v ∈ visited, v ∉ queue.map Prod.fst →
    ∀ e ∈ mgr.edges, e.source_model = v →
      e.target_model ∈ visited ∧ e.target_model ≠ target
  covered : ∀ n q, is_edge_path mgr source q n → q.length < len_front queue →
    n ∈ visited

theorem front_le_of_mem {queue : List (String × List RelationshipEdge)}
    (hs : (queue.map (fun q => q.2.length)).Pairwise (· ≤ ·))
    {n : String} {p : List RelationshipEdge} (hmem : (n, p) ∈ queue) :
    len_front queue ≤ p.length := by
  cases queue with
  | nil => cases hmem
  | cons head rest =>
    obtain ⟨c, pf⟩ := head
    rcases List.mem_cons.mp hmem with hh | hh
    · injection hh with h1 h2
      rw [h2]
      exact Nat.le_refl _
    · rw [List.map_cons, List.pairwise_cons] at hs
      exact hs.1 p.length (List.mem_map.mpr ⟨(n, p), hh, rfl⟩)

theorem reach_short_closed (mgr : ModelRelationshipManager)
    (source target : String) (queue : List (String × List RelationshipEdge))
    (visited : List String) (inv : BfsInv mgr source target queue visited)
    {w : String} {q' : List RelationshipEdge}
    (hpath : is_edge_path mgr source q' w) (hshort : q'.length < len_front queue) :
    w ∈ visited ∧ ∀ e ∈ mgr.edges, e.source_model = w →
      e.target_model ∈ visited ∧ e.target_model ≠ target := by
  have hw : w ∈ visited := inv.covered w q' hpath hshort
  have hnq : w ∉ queue.map Prod.fst := by
    intro hc
    obtain ⟨⟨n, p⟩, hmem, heq⟩ := List.mem_map.mp hc
    simp only at heq
    have h1 : p.length ≤ q'.length :=
      inv.shortest n p hmem q' (heq.symm ▸ hpath)
    have h2 : len_front queue ≤ p.length := front_le_of_mem inv.sorted hmem
    omega
  exact ⟨hw, inv.closed w hw hnq⟩

theorem pairwise_le_map_of_const {α : Type} (l : List α) (f : α → Nat) (c : Nat)
    (h : ∀ x ∈ l, f x = c) : (l.map f).Pairwise (· ≤ ·) := by
  induction l with
  | nil => exact List.Pairwise.nil
  | cons a rest ih =>
    rw [List.map_cons, List.pairwise_cons]
    constructor
    · intro y hy
      obtain ⟨b, hb, hfb⟩ := List.mem_map.mp hy
      rw [h a (List.mem_cons_self ..), ← hfb, h b (List.mem_cons_of_mem _ hb)]
    · exact ih (fun x hx => h x (List.mem_cons_of_mem _ hx))

theorem mem_outgoing (mgr : ModelRelationshipManager) (c : String)
    (e : RelationshipEdge) :
    e ∈ get_outgoing_edges mgr c ↔ e ∈ mgr.edges ∧ e.source_model = c := by
  unfold get_outgoing_edges
  rw [List.mem_filter]
  simp

theorem bfs_inv_step (mgr : ModelRelationshipManager) (source target : String)
    (c : String) (pth : List RelationshipEdge)
    (rest news : List (String × List RelationshipEdge)) (visited : List String)
    (inv : BfsInv mgr source target ((c, pth) :: rest) visited)
    (h1 : ∀ n ∈ news.map Prod.fst, n ∉ visited)
    (h3 : (news.map Prod.fst).Nodup)
    (h5 : ∀ n p, (n, p) ∈ news → ∃ e, e ∈ get_outgoing_edges mgr c ∧
       e.target_model = n ∧ n ≠ target ∧ p = pth ++ [e])
    (h6 : ∀ e ∈ get_outgoing_edges mgr c, e.target_model ≠ target ∧
       e.target_model ∈ visited ++ news.map Prod.fst) :
    BfsInv mgr source target (rest ++ news) (visited ++ news.map Prod.fst) := by
  have hpathhead : is_edge_path mgr source pth c :=
    inv.path_ok c pth (List.mem_cons_self ..)
  have hnews_len : ∀ n p, (n, p) ∈ news → p.length = pth.length + 1 := by
    intro n p hp
    obtain ⟨e, _, _, _, hpe⟩ := h5 n p hp
    rw [hpe]
    simp
  have hnews_path : ∀ n p, (n, p) ∈ news → is_edge_path mgr source p n := by
    intro n p hp
    obtain ⟨e, heo, htn, _, hpe⟩ := h5 n p hp
    obtain ⟨hee, hes⟩ := (mem_outgoing mgr c e).mp heo
    rw [hpe, ← htn]
    exact is_edge_path_append mgr hpathhead hee hes
  have hrest_sub : ∀ n p, (n, p) ∈ rest → (n, p) ∈ (c, pth) :: rest :=
    fun n p h => List.mem_cons_of_mem _ h
  have hrest_names_nodup : (rest.map Prod.fst).Nodup := by
    have := inv.nodes_nodup
    rw [List.map_cons, List.nodup_cons] at this
    exact this.2
  have hc_not_rest : c ∉ rest.map Prod.fst := by
    have := inv.nodes_nodup
    rw [List.map_cons, List.nodup_cons] at this
    exact this.1
  have hrest_names_vis : ∀ x ∈ rest.map Prod.fst, x ∈ visited := by
    intro x hx
    obtain ⟨⟨n, p⟩, hmem, heq⟩ := List.mem_map.mp hx
    simp only at heq
    exact heq ▸ inv.node_vis n p (hrest_sub n p hmem)
  have hnews_shortest : ∀ n p, (n, p) ∈ news →
      ∀ q, is_edge_path mgr source q n → p.length ≤ q.length := by
    intro n p hp q hq
    have hfresh : n ∉ visited :=
      h1 n (List.mem_map.mpr ⟨(n, p), hp, rfl⟩)
    rw [hnews_len n p hp]
    by_contra hcon
    have hqlen : q.length ≤ pth.length := by omega
    by_cases hq0 : q = []
    · subst hq0
      cases hq
      exact hfresh inv.src_vis
    · obtain ⟨q', e', heq, hpath', he', htgt'⟩ := is_edge_path_concat mgr hq hq0
      have hfrontq : len_front ((c, pth) :: rest) = pth.length := rfl
      have hlen' : q'.length < len_front ((c, pth) :: rest) := by
        rw [hfrontq]
        have : q.length = q'.length + 1 := by rw [heq]; simp
        omega
      obtain ⟨_, hcl⟩ := reach_short_closed mgr source target _ _ inv hpath' hlen'
      obtain ⟨hvis, _⟩ := hcl e' he' rfl
      rw [htgt'] at hvis
      exact hfresh hvis
  have hfront_bounds : ∀ hd tl, rest ++ news = hd :: tl →
      pth.length ≤ hd.2.length ∧ hd.2.length ≤ pth.length + 1 := by
    intro hd tl hq2
    have hmem : hd ∈ rest ++ news := by rw [hq2]; exact List.mem_cons_self ..
    obtain ⟨n, p⟩ := hd
    rcases List.mem_append.mp hmem with hm | hm
    · constructor
      · exact front_le_of_mem inv.sorted (hrest_sub n p hm)
      · exact inv.two_level n p (hrest_sub n p hm)
    · rw [hnews_len n p hm]
      omega
  have hfront2_le : len_front (rest ++ news) ≤ pth.length + 1 := by
    cases hq2 : rest ++ news with
    | nil => simp [len_front]
    | cons hd tl =>
      have := (hfront_bounds hd tl hq2).2
      simpa [len_front]
  have hfront2_ge : rest ++ news ≠ [] → pth.length ≤ len_front (rest ++ news) := by
    intro hne
    cases hq2 : rest ++ news with
    | nil => exact absurd hq2 hne
    | cons hd tl =>
      have := (hfront_bounds hd tl hq2).1
      simpa [len_front]
  refine ⟨?_, ?_, ?_, ?_, ?_, ?_, ?_, ?_, ?_, ?_, ?_, ?_⟩
  · intro n p hmem
    rcases List.mem_append.mp hmem with hm | hm
    · exact inv.path_ok n p (hrest_sub n p hm)
    · exact hnews_path n p hm
  · intro n p hmem
    rcases List.mem_append.mp hmem with hm | hm
    · exact List.mem_append_left _ (inv.node_vis n p (hrest_sub n p hm))
    · exact List.mem_append_right _ (List.mem_map.mpr ⟨(n, p), hm, rfl⟩)
  · intro n p hmem
    rcases List.mem_append.mp hmem with hm | hm
    · exact inv.node_ne n p (hrest_sub n p hm)
    · obtain ⟨e, _, _, hne, _⟩ := h5 n p hm
      exact hne
  · rw [List.map_append]
    rw [List.nodup_append]
    refine ⟨hrest_names_nodup, h3, ?_⟩
    intro x hx hx2
    exact h1 x hx2 (hrest_names_vis x hx)
  · rw [List.nodup_append]
    refine ⟨inv.vis_nodup, h3, ?_⟩
    intro x hx hx2
    exact h1 x hx2 hx
  · exact List.mem_append_left _ inv.src_vis
  · intro hc
    rcases List.mem_append.mp hc with hm | hm
    · exact inv.tgt_nvis hm
    · obtain ⟨⟨n, p⟩, hmem, heq⟩ := List.mem_map.mp hm
      simp only at heq
      obtain ⟨e, _, _, hne, _⟩ := h5 n p hmem
      exact hne heq
  · rw [List.map_append]
    rw [List.pairwise_append]
    refine ⟨?_, ?_, ?_⟩
    · have := inv.sorted
      rw [List.map_cons, List.pairwise_cons] at this
      exact this.2
    · exact pairwise_le_map_of_const news (fun q => q.2.length) (pth.length + 1)
        (fun x hx => hnews_len x.1 x.2 hx)
    · intro x hx y hy
      obtain ⟨⟨n, p⟩, hmem, heq⟩ := List.mem_map.mp hx
      obtain ⟨⟨n', p'⟩, hmem', heq'⟩ := List.mem_map.mp hy
      simp only at heq heq'
      rw [← heq, ← heq']
      have hb := inv.two_level n p (hrest_sub n p hmem)
      have hfr : len_front ((c, pth) :: rest) = pth.length := rfl
      rw [hfr] at hb
      rw [hnews_len n' p' hmem']
      exact hb
  · intro n p hmem
    have hb : p.length ≤ pth.length + 1 := by
      rcases List.mem_append.mp hmem with hm | hm
      · have := inv.two_level n p (hrest_sub n p hm)
        simpa [len_front] using this
      · rw [hnews_len n p hm]
    have hne : rest ++ news ≠ [] := by
      intro hc
      rw [hc] at hmem
      cases hmem
    have := hfront2_ge hne
    omega
  · intro n p hmem
    rcases List.mem_append.mp hmem with hm | hm
    · exact inv.shortest n p (hrest_sub n p hm)
    · exact hnews_shortest n p hm
  · intro v hv hvq e he hes
    have hvvis : v ∈ visited := by
      rcases List.mem_append.mp hv with hm | hm
      · exact hm
      · exfalso
        apply hvq
        rw [List.map_append]
        exact List.mem_append_right _ hm
    by_cases hvc : v = c
    · subst hvc
      obtain ⟨hne, hmem⟩ := h6 e ((mem_outgoing mgr v e).mpr ⟨he, hes⟩)
      exact ⟨hmem, hne⟩
    · have hvold : v ∉ ((c, pth) :: rest).map Prod.fst := by
        rw [List.map_cons]
        intro hc2
        rcases List.mem_cons.mp hc2 with hm | hm
        · exact hvc hm
        · apply hvq
          rw [List.map_append]
          exact List.mem_append_left _ hm
      obtain ⟨hvis2, hne2⟩ := inv.closed v hvvis hvold e he hes
      exact ⟨List.mem_append_left _ hvis2, hne2⟩
  · intro n q hq hlen
    have hlen2 : q.length < pth.length + 1 := by
      have := hfront2_le
      omega
    by_cases hlt : q.length < pth.length
    · exact List.mem_append_left _
        (inv.covered n q hq (by rw [show len_front ((c, pth) :: rest) = pth.length from rfl]; exact hlt))
    · by_cases hq0 : q = []
      · subst hq0
        cases hq
        exact List.mem_append_left _ inv.src_vis
      · obtain ⟨q', e', heq, hpath', he', htgt'⟩ := is_edge_path_concat mgr hq hq0
        have hqlen : q.length = q'.length + 1 := by rw [heq]; simp
        have hlen' : q'.length < len_front ((c, pth) :: rest) := by
          rw [show len_front ((c, pth) :: rest) = pth.length from rfl]
          omega
        obtain ⟨_, hcl⟩ := reach_short_closed mgr source target _ _ inv hpath' hlen'
        obtain ⟨hvis, _⟩ := hcl e' he' rfl
        rw [htgt'] at hvis
        exact List.mem_append_left _ hvis

theorem bfs_master (mgr : ModelRelationshipManager) (source target : String)
    (max_depth : Nat) :
    ∀ (fuel : Nat) (queue : List (String × List RelationshipEdge))
      (visited : List String),
      BfsInv mgr source target queue visited →
      bfs_measure mgr queue visited < fuel →
      (∀ p, bfs_loop mgr target max_depth fuel queue visited = some p →
        is_edge_path mgr source p target ∧ p.length ≤ max_depth ∧
        ∀ q, is_edge_path mgr source q target → p.length ≤ q.length) ∧
      (bfs_loop mgr target max_depth fuel queue visited = none →
        ∀ q, is_edge_path mgr source q target → ¬ q.length ≤ max_depth) := by
  intro fuel
  induction fuel with
  | zero =>
    intro queue visited _ hfuel
    exact absurd hfuel (by omega)
  | succ fuel ih =>
    intro queue visited inv hfuel
    cases queue with
    | nil =>
      constructor
      · intro p h
        rw [bfs_loop] at h
        exact Option.noConfusion h
      · intro _ q hq _
        have hcl : ∀ v ∈ visited, ∀ e ∈ mgr.edges, e.source_model = v →
            e.target_model ∈ visited ∧ e.target_model ≠ target := by
          intro v hv e he hes
          exact inv.closed v hv (by simp) e he hes
        have hneq : source ≠ target := fun hc => inv.tgt_nvis (hc ▸ inv.src_vis)
        exact no_path_of_all_closed mgr visited target hcl q source inv.src_vis hneq hq
    | cons head rest =>
      obtain ⟨c, pth⟩ := head
      by_cases hdepth : pth.length < max_depth
      · have hrun : bfs_loop mgr target max_depth (fuel + 1) ((c, pth) :: rest) visited =
            match process_edges target pth (get_outgoing_edges mgr c) visited rest with
            | .inl found => some found
            | .inr (visited2, queue2) =>
                bfs_loop mgr target max_depth fuel queue2 visited2 := by
          rw [bfs_loop, if_pos hdepth]
        cases hpe : process_edges target pth (get_outgoing_edges mgr c) visited rest with
        | inl found =>
          rw [hpe] at hrun
          constructor
          · intro p h
            rw [hrun] at h
            have hpf : p = found := (Option.some.injEq _ _).mp h.symm
            subst hpf
            obtain ⟨e, heo, het, hfe⟩ :=
              (process_edges_spec target pth (get_outgoing_edges mgr c) visited rest).1
                p hpe
            obtain ⟨hee, hes⟩ := (mem_outgoing mgr c e).mp heo
            have hpath : is_edge_path mgr source (pth ++ [e]) target := by
              rw [← het]
              exact is_edge_path_append mgr
                (inv.path_ok c pth (List.mem_cons_self ..)) hee hes
            refine ⟨by rw [hfe]; exact hpath, by rw [hfe]; simp; omega, ?_⟩
            intro q hq
            by_cases hq0 : q = []
            · subst hq0
              cases hq
              exact absurd inv.src_vis inv.tgt_nvis
            · obtain ⟨q', e', heq, hpath', he', htgt'⟩ := is_edge_path_concat mgr hq hq0
              have hqlen : q.length = q'.length + 1 := by rw [heq]; simp
              by_cases hshort : q'.length < pth.length
              · exfalso
                have hlen' : q'.length < len_front ((c, pth) :: rest) := hshort
                obtain ⟨_, hcl⟩ :=
                  reach_short_closed mgr source target _ _ inv hpath' hlen'
                obtain ⟨hvis, hne⟩ := hcl e' he' rfl
                rw [htgt'] at hne
                exact hne rfl
              · rw [hfe]
                simp only [List.length_append, List.length_cons, List.length_nil]
                omega
          · intro h
            rw [hrun] at h
            exact Option.noConfusion h
        | inr vq =>
          obtain ⟨visited2, queue2⟩ := vq
          rw [hpe] at hrun
          obtain ⟨news, hv2, hq2, hnodup, hfresh, hpairs, hclosure⟩ :=
            (process_edges_spec target pth (get_outgoing_edges mgr c) visited rest).2
              visited2 queue2 hpe
          have hpairs' : ∀ n p, (n, p) ∈ news → ∃ e,
              e ∈ get_outgoing_edges mgr c ∧ e.target_model = n ∧ n ≠ target ∧
              p = pth ++ [e] := hpairs
          have hclosure' : ∀ e ∈ get_outgoing_edges mgr c,
              e.target_model ≠ target ∧
              e.target_model ∈ visited ++ news.map Prod.fst := by
            intro e he
            obtain ⟨hne, hmem⟩ := hclosure e he
            exact ⟨hne, hv2 ▸ hmem⟩
          have inv2 : BfsInv mgr source target (rest ++ news)
              (visited ++ news.map Prod.fst) :=
            bfs_inv_step mgr source target c pth rest news visited inv
              hfresh hnodup hpairs' hclosure'
          have hmeas : bfs_measure mgr (rest ++ news) (visited ++ news.map Prod.fst)
              < fuel := by
            have hsub2 : ∀ n ∈ news.map Prod.fst,
                n ∈ (mgr.edges.map (fun e => e.target_model)).toFinset := by
              intro n hn
              obtain ⟨⟨n', p'⟩, hmem, heq⟩ := List.mem_map.mp hn
              simp only at heq
              obtain ⟨e, heo, het, _, _⟩ := hpairs n' p' hmem
              obtain ⟨hee, _⟩ := (mem_outgoing mgr c e).mp heo
              rw [List.mem_toFinset]
              exact List.mem_map.mpr ⟨e, hee, heq ▸ het⟩
            have hcount := sdiff_card_append
              ((mgr.edges.map (fun e => e.target_model)).toFinset)
              visited (news.map Prod.fst) hnodup hfresh hsub2
            unfold bfs_measure at hfuel ⊢
            rw [List.length_append, List.length_map] at *
            simp only [List.length_cons] at hfuel
            omega
          have hrec := ih (rest ++ news) (visited ++ news.map Prod.fst) inv2 hmeas
          rw [hrun, hq2, hv2]
          exact hrec
      · constructor
        · intro p h
          rw [bfs_loop, if_neg hdepth] at h
          exact Option.noConfusion h
        · intro _ q hq hqle
          have hfr : len_front ((c, pth) :: rest) = pth.length := rfl
          by_cases hq0 : q = []
          · subst hq0
            cases hq
            exact absurd inv.src_vis inv.tgt_nvis
          · obtain ⟨q', e', heq, hpath', he', htgt'⟩ := is_edge_path_concat mgr hq hq0
            have hqlen : q.length = q'.length + 1 := by rw [heq]; simp
            have hlen' : q'.length < len_front ((c, pth) :: rest) := by
              rw [hfr]
              omega
            obtain ⟨_, hcl⟩ := reach_short_closed mgr source target _ _ inv hpath' hlen'
            obtain ⟨hvis, hne⟩ := hcl e' he' rfl
            rw [htgt'] at hne
            exact hne rfl

/-- C8: for registered source and target names, find_path is exact
breadth-first search: it returns the empty path when source equals target;
any returned edge sequence is a genuine path from source to target of
length at most max_depth, and of minimum length among all paths; whenever
some path of length at most max_depth exists a path is returned; and a
None result means no path within max_depth exists.  Determinism is
inherent: find_path is a pure function of the manager (whose adjacency
buckets preserve edge registration order), so identical registration
order yields identical results. -/
theorem c8_find_path_bfs (mgr : ModelRelationshipManager)
    (source target : String) (max_depth : Nat)
    (hs : source ∈ manager_keys mgr) (ht : target ∈ manager_keys mgr) :
    (source = target → find_path mgr source target max_depth = some []) ∧
    (∀ p, find_path mgr source target max_depth = some p →
      is_edge_path mgr source p target ∧ p.length ≤ max_depth ∧
      ∀ q, is_edge_path mgr source q target → p.length ≤ q.length) ∧
    ((∃ q, is_edge_path mgr source q target ∧ q.length ≤ max_depth) →
      ∃ p, find_path mgr source target max_depth = some p) ∧
    (find_path mgr source target max_depth = none →
      ¬ ∃ q, is_edge_path mgr source q target ∧ q.length ≤ max_depth) := by
  unfold find_path
  rw [if_pos ⟨hs, ht⟩]
  by_cases hst : source = target
  · rw [if_pos hst]
    refine ⟨fun _ => rfl, ?_, ?_, ?_⟩
    · intro p h
      have hp : p = [] := ((Option.some.injEq _ _).mp h).symm
      subst hp
      exact ⟨hst, by simp, fun q _ => by simp⟩
    · intro _
      exact ⟨[], rfl⟩
    · intro h
      exact Option.noConfusion h
  · rw [if_neg hst]
    have inv0 : BfsInv mgr source target [(source, [])] [source] := by
      refine ⟨?_, ?_, ?_, ?_, ?_, ?_, ?_, ?_, ?_, ?_, ?_, ?_⟩
      · intro n p hmem
        obtain ⟨h1, h2⟩ := Prod.mk.injEq .. ▸ List.mem_singleton.mp hmem
        subst h1
        subst h2
        exact rfl
      · intro n p hmem
        obtain ⟨h1, _⟩ := Prod.mk.injEq .. ▸ List.mem_singleton.mp hmem
        subst h1
        exact List.mem_singleton.mpr rfl
      · intro n p hmem
        obtain ⟨h1, _⟩ := Prod.mk.injEq .. ▸ List.mem_singleton.mp hmem
        subst h1
        exact hst
      · simp
      · simp
      · exact List.mem_singleton.mpr rfl
      · intro hc
        exact hst ((List.mem_singleton.mp hc).symm)
      · simp
      · intro n p hmem
        obtain ⟨_, h2⟩ := Prod.mk.injEq .. ▸ List.mem_singleton.mp hmem
        subst h2
        simp [len_front]
      · intro n p hmem q _
        obtain ⟨_, h2⟩ := Prod.mk.injEq .. ▸ List.mem_singleton.mp hmem
        subst h2
        simp
      · intro v hv hvq
        exfalso
        apply hvq
        simpa using List.mem_singleton.mp hv
      · intro n q _ hlen
        exact absurd hlen (by simp [len_front])
    have hmeas : bfs_measure mgr [(source, [])] [source] < mgr.edges.length + 2 := by
      unfold bfs_measure
      have h1 : ((mgr.edges.map (fun e => e.target_model)).toFinset \
          ([source] : List String).toFinset).card ≤
          (mgr.edges.map (fun e => e.target_model)).toFinset.card :=
        Finset.card_le_card (Finset.sdiff_subset)
      have h2 : (mgr.edges.map (fun e => e.target_model)).toFinset.card ≤
          (mgr.edges.map (fun e => e.target_model)).length :=
        List.toFinset_card_le _
      rw [List.length_map] at h2
      simp only [List.length_cons, List.length_nil]
      omega
    have hmaster := bfs_master mgr source target max_depth (mgr.edges.length + 2)
      [(source, [])] [source] inv0 hmeas
    refine ⟨fun hc => absurd hc hst, hmaster.1, ?_, ?_⟩
    · rintro ⟨q, hq, hqle⟩
      cases hres : bfs_loop mgr target max_depth (mgr.edges.length + 2)
          [(source, [])] [source] with
      | none => exact absurd hqle (hmaster.2 hres q hq)
      | some p => exact ⟨p, rfl⟩
    · intro hnone
      rintro ⟨q, hq, hqle⟩
      exact hmaster.2 hnone q hq hqle

/-- Closed instance of C8 on the concrete User/Post graph. -/
theorem c8_find_path_bfs_witness :
    ("User" ∈ manager_keys exMgr) ∧ ("Post" ∈ manager_keys exMgr) ∧
    ((("User" : String) = "Post") → find_path exMgr "User" "Post" 5 = some []) ∧
    (∀ p, find_path exMgr "User" "Post" 5 = some p →
      is_edge_path exMgr "User" p "Post" ∧ p.length ≤ 5 ∧
      ∀ q, is_edge_path exMgr "User" q "Post" → p.length ≤ q.length) ∧
    ((∃ q, is_edge_path exMgr "User" q "Post" ∧ q.length ≤ 5) →
      ∃ p, find_path exMgr "User" "Post" 5 = some p) ∧
    (find_path exMgr "User" "Post" 5 = none →
      ¬ ∃ q, is_edge_path exMgr "User" q "Post" ∧ q.length ≤ 5) := by
  have h := c8_find_path_bfs exMgr "User" "Post" 5 (by decide) (by decide)
  exact ⟨by decide, by decide, h.1, h.2.1, h.2.2.1, h.2.2.2⟩

/-- The mutable state shared by the recursive dfs of detect_cycles: the
accumulated cycle list, the visited set and the recursion stack (cycles,
visited, rec_stack of lines 377-379), each kept in insertion order. -/
structure DfsState where
  cycles : List (List String)
  visited : List String
  stack : List String
deriving DecidableEq, Repr

/-- The state just after dfs marks a fresh node: visited.add(node) and
rec_stack.add(node), lines 391-392. -/
def dfs_pre (node : String) (s : DfsState) : DfsState :=
  { cycles := s.cycles, visited := s.visited ++ [node], stack := s.stack ++ [node] }

/-- The state after dfs finishes a node: rec_stack.remove(node), line 397. -/
def dfs_post (node : String) (s : DfsState) : DfsState :=
  { s with stack := s.stack.erase node }

/-- The inner dfs of detect_cycles (lines 381-397).  A node found on the
recursion stack closes a cycle `path[path.index(node):] + [node]`; a
visited node is skipped; otherwise the node is marked visited and pushed,
every outgoing edge is followed with `path + [node]`, and the node is
popped again.  In the source the recursion-stack membership test precedes
the visited test exactly as here, and `path` always enumerates the
recursion stack in push order, so `path.index(node)` is defined whenever
the first branch fires.  The fuel only makes the recursion structural;
detect_cycles passes (node count + edge count + 1), which is never
exhausted because every nested call descends from a freshly visited node
and every visitable node is a registered name or an edge target. -/
def dfs (mgr : ModelRelationshipManager) :
    Nat → String → List String → DfsState → DfsState
  | 0, _, _, s => s
  | fuel + 1, node, path, s =>
    if node ∈ s.stack then
      { s with cycles := s.cycles ++ [path.drop (path.indexOf node) ++ [node]] }
    else if node ∈ s.visited then s
    else
      dfs_post node
        ((get_outgoing_edges mgr node).foldl
          (fun st e => dfs mgr fuel e.target_model (path ++ [node]) st)
          (dfs_pre node s))

/-- ModelRelationshipManager.detect_cycles (lines 370-403): run dfs from
every not-yet-visited registered node (in registration order) starting from
the empty path and collect every recorded cycle.  The function is total —
absence of cycles is the empty list, never an exception. -/
def detect_cycles (mgr : ModelRelationshipManager) : List (List String) :=
  ((mgr.nodes.map Prod.fst).foldl
    (fun s n => if n ∈ s.visited then s
                else dfs mgr (mgr.nodes.length + mgr.edges.length + 1) n [] s)
    { cycles := [], visited := [], stack := [] }).cycles

theorem dfs_frame (mgr : ModelRelationshipManager) :
    ∀ (fuel : Nat) (node : String) (path : List String) (s : DfsState),
      (dfs mgr fuel node path s).stack = s.stack ∧
      s.visited <+: (dfs mgr fuel node path s).visited ∧
      s.cycles <+: (dfs mgr fuel node path s).cycles := by
  intro fuel
  induction fuel with
  | zero =>
    intro node path s
    exact ⟨rfl, List.prefix_refl _, List.prefix_refl _⟩
  | succ fuel ih =>
    intro node path s
    by_cases hstk : node ∈ s.stack
    · rw [dfs, if_pos hstk]
      exact ⟨rfl, List.prefix_refl _, List.prefix_append _ _⟩
    · by_cases hvis : node ∈ s.visited
      · rw [dfs, if_neg hstk, if_pos hvis]
        exact ⟨rfl, List.prefix_refl _, List.prefix_refl _⟩
      · rw [dfs, if_neg hstk, if_neg hvis]
        have hfold : ∀ (l : List RelationshipEdge) (st : DfsState),
            (l.foldl (fun st e => dfs mgr fuel e.target_model (path ++ [node]) st)
              st).stack = st.stack ∧
            st.visited <+: (l.foldl
              (fun st e => dfs mgr fuel e.target_model (path ++ [node]) st)
              st).visited ∧
            st.cycles <+: (l.foldl
              (fun st e => dfs mgr fuel e.target_model (path ++ [node]) st)
              st).cycles := by
          intro l
          induction l with
          | nil =>
            intro st
            exact ⟨rfl, List.prefix_refl _, List.prefix_refl _⟩
          | cons f fs ihl =>
            intro st
            simp only [List.foldl_cons]
            obtain ⟨h1, h2, h3⟩ := ih f.target_model (path ++ [node]) st
            obtain ⟨g1, g2, g3⟩ := ihl (dfs mgr fuel f.target_model (path ++ [node]) st)
            exact ⟨g1.trans h1, h2.trans g2, h3.trans g3⟩
        obtain ⟨h1, h2, h3⟩ := hfold (get_outgoing_edges mgr node) (dfs_pre node s)
        refine ⟨?_, ?_, ?_⟩
        · show ((get_outgoing_edges mgr node).foldl
              (fun st e => dfs mgr fuel e.target_model (path ++ [node]) st)
              (dfs_pre node s)).stack.erase node = s.stack
          rw [h1]
          show (s.stack ++ [node]).erase node = s.stack
          rw [List.erase_append_right _ hstk]
          simp
        · exact (List.prefix_append _ _).trans h2
        · exact h3

theorem dfs_fold_frame (mgr : ModelRelationshipManager) (fuel : Nat)
    (path2 : List String) :
    ∀ (l : List RelationshipEdge) (st : DfsState),
      (l.foldl (fun st e => dfs mgr fuel e.target_model path2 st) st).stack =
        st.stack ∧
      st.visited <+:
        (l.foldl (fun st e => dfs mgr fuel e.target_model path2 st) st).visited ∧
      st.cycles <+:
        (l.foldl (fun st e => dfs mgr fuel e.target_model path2 st) st).cycles := by
  intro l
  induction l with
  | nil =>
    intro st
    exact ⟨rfl, List.prefix_refl _, List.prefix_refl _⟩
  | cons f fs ih =>
    intro st
    simp only [List.foldl_cons]
    obtain ⟨h1, h2, h3⟩ := dfs_frame mgr fuel f.target_model path2 st
    obtain ⟨g1, g2, g3⟩ := ih (dfs mgr fuel f.target_model path2 st)
    exact ⟨g1.trans h1, h2.trans g2, h3.trans g3⟩

/-- There is a relationship edge from model a to model b. -/
def has_edge (mgr : ModelRelationshipManager) (a b : String) : Prop :=
  ∃ e ∈ mgr.edges, e.source_model = a ∧ e.target_model = b

/-- `vertex_walk mgr a l`: starting at a, the vertices of l can be visited
in order along relationship edges. -/
def vertex_walk (mgr : ModelRelationshipManager) : String → List String → Prop
  | _, [] => True
  | a, b :: rest => has_edge mgr a b ∧ vertex_walk mgr b rest

/-- `chain_to mgr path node`: the dfs invariant tying the path parameter to
the graph — the vertices of path form a walk that ends with an edge into
node (vacuous for the empty path of a dfs root). -/
def chain_to (mgr : ModelRelationshipManager) : List String → String → Prop
  | [], _ => True
  | p0 :: rest, n => vertex_walk mgr p0 (rest ++ [n])

/-- The shape of every list recorded by detect_cycles: a nonempty closed
walk, starting and ending at the node where the back edge was found. -/
def cycle_ok (mgr : ModelRelationshipManager) (c : List String) : Prop :=
  ∃ a l, c = a :: l ∧ l ≠ [] ∧ vertex_walk mgr a l ∧ l.getLast? = some a

/-- The relationship graph has no directed cycle. -/
def Acyclic (mgr : ModelRelationshipManager) : Prop :=
  ∀ (a : String) (l : List String), vertex_walk mgr a l → l.getLast? = some a → False

theorem walk_snoc (mgr : ModelRelationshipManager) :
    ∀ (l : List String) (a n next : String),
      vertex_walk mgr a (l ++ [n]) → has_edge mgr n next →
      vertex_walk mgr a (l ++ [n] ++ [next]) := by
  intro l
  induction l with
  | nil =>
    intro a n next hw he
    exact ⟨hw.1, he, trivial⟩
  | cons b rest ih =>
    intro a n next hw he
    exact ⟨hw.1, ih b n next hw.2 he⟩

theorem chain_to_snoc (mgr : ModelRelationshipManager) {path : List String}
    {node next : String} (hc : chain_to mgr path node)
    (he : has_edge mgr node next) : chain_to mgr (path ++ [node]) next := by
  cases path with
  | nil => exact ⟨he, trivial⟩
  | cons p0 rest =>
    show vertex_walk mgr p0 ((rest ++ [node]) ++ [next])
    exact walk_snoc mgr rest p0 node next hc he

theorem chain_to_drop (mgr : ModelRelationshipManager) :
    ∀ (i : Nat) (path : List String) (node : String),
      chain_to mgr path node → chain_to mgr (path.drop i) node := by
  intro i
  induction i with
  | zero =>
    intro path node h
    exact h
  | succ j ih =>
    intro path node h
    cases path with
    | nil => exact h
    | cons p0 rest =>
      rw [List.drop_succ_cons]
      apply ih
      cases rest with
      | nil => exact trivial
      | cons r0 rest2 => exact h.2

theorem chain_to_cons_walk (mgr : ModelRelationshipManager)
    {a n : String} {rest : List String}
    (h : chain_to mgr (a :: rest) n) : vertex_walk mgr a (rest ++ [n]) := h

theorem dfs_cycles_sound (mgr : ModelRelationshipManager) :
    ∀ (fuel : Nat) (node : String) (path : List String) (s : DfsState),
      (∀ x, x ∈ s.stack ↔ x ∈ path) →
      chain_to mgr path node →
      (∀ c ∈ s.cycles, cycle_ok mgr c) →
      ∀ c ∈ (dfs mgr fuel node path s).cycles, cycle_ok mgr c := by
  intro fuel
  induction fuel with
  | zero =>
    intro node path s _ _ hsound
    exact hsound
  | succ fuel ih =>
    intro node path s hstack hchain hsound
    by_cases hstk : node ∈ s.stack
    · rw [dfs, if_pos hstk]
      intro c hc
      simp only at hc
      rcases List.mem_append.mp hc with hm | hm
      · exact hsound c hm
      · have hceq : c = path.drop (path.indexOf node) ++ [node] :=
          List.mem_singleton.mp hm
        have hnode : node ∈ path := (hstack node).mp hstk
        have hidx : path.indexOf node < path.length :=
          List.indexOf_lt_length.mpr hnode
        have hget : path[path.indexOf node] = node := List.getElem_indexOf hidx
        have hdropeq : path.drop (path.indexOf node) =
            node :: path.drop (path.indexOf node + 1) := by
          rw [List.drop_eq_getElem_cons hidx, hget]
        have hchain2 : chain_to mgr (path.drop (path.indexOf node)) node :=
          chain_to_drop mgr _ path node hchain
        rw [hdropeq] at hchain2
        refine ⟨node, path.drop (path.indexOf node + 1) ++ [node], ?_, by simp, ?_, ?_⟩
        · rw [hceq, hdropeq]
          simp
        · exact chain_to_cons_walk mgr hchain2
        · simp
    · by_cases hvis : node ∈ s.visited
      · rw [dfs, if_neg hstk, if_pos hvis]
        exact hsound
      · rw [dfs, if_neg hstk, if_neg hvis]
        have hfold : ∀ (l : List RelationshipEdge) (st : DfsState),
            (∀ f ∈ l, has_edge mgr node f.target_model) →
            st.stack = s.stack ++ [node] →
            (∀ c ∈ st.cycles, cycle_ok mgr c) →
            ∀ c ∈ (l.foldl
              (fun st e => dfs mgr fuel e.target_model (path ++ [node]) st)
              st).cycles, cycle_ok mgr c := by
          intro l
          induction l with
          | nil =>
            intro st _ _ hs
            exact hs
          | cons f fs ihl =>
            intro st hedges hstackeq hs
            simp only [List.foldl_cons]
            have hstack2 : ∀ x, x ∈ st.stack ↔ x ∈ path ++ [node] := by
              intro x
              rw [hstackeq]
              simp only [List.mem_append, List.mem_singleton]
              constructor
              · rintro (hx | hx)
                · exact Or.inl ((hstack x).mp hx)
                · exact Or.inr hx
              · rintro (hx | hx)
                · exact Or.inl ((hstack x).mpr hx)
                · exact Or.inr hx
            have hchain2 : chain_to mgr (path ++ [node]) f.target_model :=
              chain_to_snoc mgr hchain (hedges f (List.mem_cons_self ..))
            have hrec := ih f.target_model (path ++ [node]) st hstack2 hchain2 hs
            apply ihl
            · intro g hg
              exact hedges g (List.mem_cons_of_mem _ hg)
            · rw [(dfs_frame mgr fuel f.target_model (path ++ [node]) st).1, hstackeq]
            · exact hrec
        intro c hc
        refine hfold (get_outgoing_edges mgr node) (dfs_pre node s) ?_ rfl hsound c hc
        intro f hf
        obtain ⟨hfe, hfs⟩ := (mem_outgoing mgr node f).mp hf
        exact ⟨f, hfe, hfs, rfl⟩

theorem drop_append_le {α : Type} :
    ∀ (l1 : List α) (i : Nat) (l2 : List α), i ≤ l1.length →
      (l1 ++ l2).drop i = l1.drop i ++ l2 := by
  intro l1
  induction l1 with
  | nil =>
    intro i l2 hi
    have : i = 0 := Nat.le_zero.mp hi
    subst this
    simp
  | cons a rest ih =>
    intro i l2 hi
    cases i with
    | zero => simp
    | succ j =>
      simp only [List.cons_append, List.drop_succ_cons]
      exact ih j l2 (by simpa using hi)

theorem unvisited_count_mono (univ : List String) :
    ∀ (v v2 : List String), (∀ x ∈ v, x ∈ v2) →
      (univ.filter (fun x => x ∉ v2)).length ≤
      (univ.filter (fun x => x ∉ v)).length := by
  induction univ with
  | nil =>
    intro v v2 _
    exact Nat.le_refl _
  | cons a us ih =>
    intro v v2 hsub
    rw [← List.countP_eq_length_filter, ← List.countP_eq_length_filter] at *
    rw [List.countP_cons, List.countP_cons]
    have hih := ih v v2 hsub
    rw [← List.countP_eq_length_filter, ← List.countP_eq_length_filter] at hih
    have hcond : (if decide (a ∉ v2) = true then 1 else 0) ≤
        (if decide (a ∉ v) = true then 1 else 0) := by
      by_cases ha2 : a ∈ v2
      · simp [ha2]
      · have ha : a ∉ v := fun hc => ha2 (hsub a hc)
        simp [ha2, ha]
    omega

theorem unvisited_count_snoc_lt (univ : List String) :
    ∀ (v : List String) (n : String), n ∈ univ → n ∉ v →
      (univ.filter (fun x => x ∉ v ++ [n])).length <
      (univ.filter (fun x => x ∉ v)).length := by
  induction univ with
  | nil =>
    intro v n hn _
    cases hn
  | cons a us ih =>
    intro v n hn hnv
    rw [← List.countP_eq_length_filter, ← List.countP_eq_length_filter]
    rw [List.countP_cons, List.countP_cons]
    have hmono := unvisited_count_mono us v (v ++ [n])
      (fun x hx => List.mem_append_left _ hx)
    rw [← List.countP_eq_length_filter, ← List.countP_eq_length_filter] at hmono
    by_cases han : a = n
    · subst han
      have hc1 : (if decide (a ∉ v ++ [a]) = true then 1 else 0) = 0 := by
        simp
      have hc2 : (if decide (a ∉ v) = true then 1 else 0) = 1 := by
        simp [hnv]
      omega
    · rcases List.mem_cons.mp hn with hc | hc
      · exact absurd hc.symm han
      · have hih := ih v n hc hnv
        rw [← List.countP_eq_length_filter, ← List.countP_eq_length_filter] at hih
        have hcond : (if decide (a ∉ v ++ [n]) = true then 1 else 0) =
            (if decide (a ∉ v) = true then 1 else 0) := by
          by_cases ha : a ∈ v
          · simp [ha]
          · simp only [List.mem_append, List.mem_singleton]
            have : ¬(a ∈ v ∨ a ∈ [n]) := by
              rintro (h | h)
              · exact ha h
              · exact han (List.mem_singleton.mp h)
            simp [ha, this, han]
        omega

theorem dfs_key (mgr : ModelRelationshipManager) (univ : List String)
    (u w : String) (e : RelationshipEdge) (he : e ∈ mgr.edges)
    (hsrc : e.source_model = u) (htgt : e.target_model = w)
    (hedget : ∀ f ∈ mgr.edges, f.target_model ∈ univ) :
    ∀ (fuel : Nat) (node : String) (path : List String) (s : DfsState),
      node ∈ univ →
      (univ.filter (fun x => x ∉ s.visited)).length < fuel →
      (∀ x, x ∈ s.stack ↔ x ∈ path) →
      (w = node ∨ w ∈ path) →
      u ∉ s.visited →
      u ∈ (dfs mgr fuel node path s).visited →
      ∃ c ∈ (dfs mgr fuel node path s).cycles, u ∈ c ∧ w ∈ c := by
  intro fuel
  induction fuel with
  | zero =>
    intro node path s _ hcount _ _ _ _
    exact absurd hcount (by omega)
  | succ fuel ih =>
    intro node path s hnodeu hcount hstack hw hnv hv
    by_cases hstk : node ∈ s.stack
    · rw [dfs, if_pos hstk] at hv ⊢
      exact absurd hv hnv
    · by_cases hvis : node ∈ s.visited
      · rw [dfs, if_neg hstk, if_pos hvis] at hv ⊢
        exact absurd hv hnv
      · rw [dfs, if_neg hstk, if_neg hvis] at hv ⊢
        have hcount1 :
            (univ.filter (fun x => x ∉ (dfs_pre node s).visited)).length < fuel := by
          have hlt := unvisited_count_snoc_lt univ s.visited node hnodeu hvis
          show (univ.filter (fun x => x ∉ s.visited ++ [node])).length < fuel
          omega
        by_cases hnu : node = u
        · subst hnu
          have heo : e ∈ get_outgoing_edges mgr node :=
            (mem_outgoing mgr node e).mpr ⟨he, hsrc⟩
          obtain ⟨l1, l2, hsplit⟩ := List.append_of_mem heo
          rw [hsplit, List.foldl_append, List.foldl_cons, htgt]
          have hst1 := dfs_fold_frame mgr fuel (path ++ [node]) l1 (dfs_pre node s)
          have hwstk : w ∈ (l1.foldl
              (fun st e => dfs mgr fuel e.target_model (path ++ [node]) st)
              (dfs_pre node s)).stack := by
            rw [hst1.1]
            show w ∈ s.stack ++ [node]
            rcases hw with hw1 | hw1
            · exact List.mem_append_right _ (List.mem_singleton.mpr hw1)
            · exact List.mem_append_left _ ((hstack w).mpr hw1)
          have hfuelpos : fuel ≠ 0 := by omega
          obtain ⟨k, hk⟩ := Nat.exists_eq_succ_of_ne_zero hfuelpos
          subst hk
          rw [dfs, if_pos hwstk]
          have hwmem : w ∈ path ++ [node] := by
            rcases hw with hw1 | hw1
            · exact List.mem_append_right _ (List.mem_singleton.mpr hw1)
            · exact List.mem_append_left _ hw1
          have hidx : (path ++ [node]).indexOf w < (path ++ [node]).length :=
            List.indexOf_lt_length.mpr hwmem
          have hidx2 : (path ++ [node]).indexOf w ≤ path.length := by
            simp only [List.length_append, List.length_cons, List.length_nil] at hidx
            omega
          generalize (l1.foldl
            (fun st e => dfs mgr (k + 1) e.target_model (path ++ [node]) st)
            (dfs_pre node s)) = st1
          refine ⟨(path ++ [node]).drop ((path ++ [node]).indexOf w) ++ [w], ?_, ?_, ?_⟩
          · exact ((dfs_fold_frame mgr (k + 1) (path ++ [node]) l2
              { st1 with cycles := st1.cycles ++
                [(path ++ [node]).drop ((path ++ [node]).indexOf w) ++ [w]] }).2.2).subset
              (List.mem_append_right _ (List.mem_singleton.mpr rfl))
          · rw [drop_append_le path _ [node] hidx2]
            exact List.mem_append_left _
              (List.mem_append_right _ (List.mem_singleton.mpr rfl))
          · exact List.mem_append_right _ (List.mem_singleton.mpr rfl)
        · have hfold : ∀ (l : List RelationshipEdge) (st : DfsState),
              (∀ f ∈ l, f ∈ mgr.edges) →
              st.stack = s.stack ++ [node] →
              (∀ x ∈ (dfs_pre node s).visited, x ∈ st.visited) →
              u ∉ st.visited →
              u ∈ (l.foldl
                (fun st e => dfs mgr fuel e.target_model (path ++ [node]) st)
                st).visited →
              ∃ c ∈ (l.foldl
                (fun st e => dfs mgr fuel e.target_model (path ++ [node]) st)
                st).cycles, u ∈ c ∧ w ∈ c := by
            intro l
            induction l with
            | nil =>
              intro st _ _ _ hnv2 hv2
              exact absurd hv2 hnv2
            | cons f fs ihl =>
              intro st hedges hstk2 hsup hnv2 hv2
              simp only [List.foldl_cons] at hv2 ⊢
              by_cases hu2 : u ∈ (dfs mgr fuel f.target_model (path ++ [node]) st).visited
              · have hstack2 : ∀ x, x ∈ st.stack ↔ x ∈ path ++ [node] := by
                  intro x
                  rw [hstk2]
                  simp only [List.mem_append, List.mem_singleton]
                  constructor
                  · rintro (hx | hx)
                    · exact Or.inl ((hstack x).mp hx)
                    · exact Or.inr hx
                  · rintro (hx | hx)
                    · exact Or.inl ((hstack x).mpr hx)
                    · exact Or.inr hx
                have hwchild : w = f.target_model ∨ w ∈ path ++ [node] := by
                  rcases hw with hw1 | hw1
                  · exact Or.inr (List.mem_append_right _ (List.mem_singleton.mpr hw1))
                  · exact Or.inr (List.mem_append_left _ hw1)
                have hcount2 : (univ.filter (fun x => x ∉ st.visited)).length < fuel :=
                  lt_of_le_of_lt
                    (unvisited_count_mono univ (dfs_pre node s).visited st.visited hsup)
                    hcount1
                obtain ⟨c, hc, hcu, hcw⟩ := ih f.target_model (path ++ [node]) st
                  (hedget f (hedges f (List.mem_cons_self ..))) hcount2 hstack2
                  hwchild hnv2 hu2
                refine ⟨c, ?_, hcu, hcw⟩
                exact ((dfs_fold_frame mgr fuel (path ++ [node]) fs _).2.2).subset hc
              · apply ihl
                · intro g hg
                  exact hedges g (List.mem_cons_of_mem _ hg)
                · rw [(dfs_frame mgr fuel f.target_model (path ++ [node]) st).1, hstk2]
                · intro x hx
                  exact ((dfs_frame mgr fuel f.target_model
                    (path ++ [node]) st).2.1).subset (hsup x hx)
                · exact hu2
                · exact hv2
          refine hfold (get_outgoing_edges mgr node) (dfs_pre node s) ?_ rfl
            (fun x hx => hx) ?_ hv
          · intro f hf
            exact ((mem_outgoing mgr node f).mp hf).1
          · intro hc
            rcases List.mem_append.mp hc with hm | hm
            · exact hnv hm
            · exact hnu ((List.mem_singleton.mp hm).symm)

theorem dfs_key_start (mgr : ModelRelationshipManager) (univ : List String)
    (u : String) (e : RelationshipEdge) (he : e ∈ mgr.edges)
    (hsrc : e.source_model = u) (htgt : e.target_model = u)
    (hedget : ∀ f ∈ mgr.edges, f.target_model ∈ univ) :
    ∀ (fuel : Nat) (node : String) (path : List String) (s : DfsState),
      node ∈ univ →
      (univ.filter (fun x => x ∉ s.visited)).length < fuel →
      (∀ x, x ∈ s.stack ↔ x ∈ path) →
      u ∉ s.visited →
      u ∈ (dfs mgr fuel node path s).visited →
      ∃ c ∈ (dfs mgr fuel node path s).cycles, u ∈ c := by
  intro fuel
  induction fuel with
  | zero =>
    intro node path s _ hcount _ _ _
    exact absurd hcount (by omega)
  | succ fuel ih =>
    intro node path s hnodeu hcount hstack hnv hv
    by_cases hnu : node = u
    · subst hnu
      obtain ⟨c, hc, hcu, _⟩ := dfs_key mgr univ node node e he hsrc htgt hedget
        (fuel + 1) node path s hnodeu hcount hstack (Or.inl rfl) hnv hv
      exact ⟨c, hc, hcu⟩
    · by_cases hstk : node ∈ s.stack
      · rw [dfs, if_pos hstk] at hv ⊢
        exact absurd hv hnv
      · by_cases hvis : node ∈ s.visited
        · rw [dfs, if_neg hstk, if_pos hvis] at hv ⊢
          exact absurd hv hnv
        · rw [dfs, if_neg hstk, if_neg hvis] at hv ⊢
          have hcount1 :
              (univ.filter (fun x => x ∉ (dfs_pre node s).visited)).length < fuel := by
            have hlt := unvisited_count_snoc_lt univ s.visited node hnodeu hvis
            show (univ.filter (fun x => x ∉ s.visited ++ [node])).length < fuel
            omega
          have hfold : ∀ (l : List RelationshipEdge) (st : DfsState),
              (∀ f ∈ l, f ∈ mgr.edges) →
              st.stack = s.stack ++ [node] →
              (∀ x ∈ (dfs_pre node s).visited, x ∈ st.visited) →
              u ∉ st.visited →
              u ∈ (l.foldl
                (fun st e => dfs mgr fuel e.target_model (path ++ [node]) st)
                st).visited →
              ∃ c ∈ (l.foldl
                (fun st e => dfs mgr fuel e.target_model (path ++ [node]) st)
                st).cycles, u ∈ c := by
            intro l
            induction l with
            | nil =>
              intro st _ _ _ hnv2 hv2
              exact absurd hv2 hnv2
            | cons f fs ihl =>
              intro st hedges hstk2 hsup hnv2 hv2
              simp only [List.foldl_cons] at hv2 ⊢
              by_cases hu2 : u ∈ (dfs mgr fuel f.target_model (path ++ [node]) st).visited
              · have hstack2 : ∀ x, x ∈ st.stack ↔ x ∈ path ++ [node] := by
                  intro x
                  rw [hstk2]
                  simp only [List.mem_append, List.mem_singleton]
                  constructor
                  · rintro (hx | hx)
                    · exact Or.inl ((hstack x).mp hx)
                    · exact Or.inr hx
                  · rintro (hx | hx)
                    · exact Or.inl ((hstack x).mpr hx)
                    · exact Or.inr hx
                have hcount2 : (univ.filter (fun x => x ∉ st.visited)).length < fuel :=
                  lt_of_le_of_lt
                    (unvisited_count_mono univ (dfs_pre node s).visited st.visited hsup)
                    hcount1
                obtain ⟨c, hc, hcu⟩ := ih f.target_model (path ++ [node]) st
                  (hedget f (hedges f (List.mem_cons_self ..))) hcount2 hstack2 hnv2 hu2
                refine ⟨c, ?_, hcu⟩
                exact ((dfs_fold_frame mgr fuel (path ++ [node]) fs _).2.2).subset hc
              · apply ihl
                · intro g hg
                  exact hedges g (List.mem_cons_of_mem _ hg)
                · rw [(dfs_frame mgr fuel f.target_model (path ++ [node]) st).1, hstk2]
                · intro x hx
                  exact ((dfs_frame mgr fuel f.target_model
                    (path ++ [node]) st).2.1).subset (hsup x hx)
                · exact hu2
                · exact hv2
          refine hfold (get_outgoing_edges mgr node) (dfs_pre node s) ?_ rfl
            (fun x hx => hx) ?_ hv
          · intro f hf
            exact ((mem_outgoing mgr node f).mp hf).1
          · intro hc
            rcases List.mem_append.mp hc with hm | hm
            · exact hnv hm
            · exact hnu ((List.mem_singleton.mp hm).symm)

theorem dfs_key0 (mgr : ModelRelationshipManager) (univ : List String)
    (A B : String) (e1 e2 : RelationshipEdge) (hAB : A ≠ B)
    (he1 : e1 ∈ mgr.edges) (hs1 : e1.source_model = A) (ht1 : e1.target_model = B)
    (he2 : e2 ∈ mgr.edges) (hs2 : e2.source_model = B) (ht2 : e2.target_model = A)
    (hedget : ∀ f ∈ mgr.edges, f.target_model ∈ univ) :
    ∀ (fuel : Nat) (node : String) (path : List String) (s : DfsState),
      node ∈ univ →
      (univ.filter (fun x => x ∉ s.visited)).length < fuel →
      (∀ x, x ∈ s.stack ↔ x ∈ path) →
      (∀ x ∈ s.stack, x ∈ s.visited) →
      A ∉ s.visited → B ∉ s.visited →
      (A ∈ (dfs mgr fuel node path s).visited ∨
        B ∈ (dfs mgr fuel node path s).visited) →
      ∃ c ∈ (dfs mgr fuel node path s).cycles, A ∈ c ∧ B ∈ c := by
  intro fuel
  induction fuel with
  | zero =>
    intro node path s _ hcount _ _ _ _ _
    exact absurd hcount (by omega)
  | succ fuel ih =>
    intro node path s hnodeu hcount hstack hsub hnA hnB hv
    by_cases hstk : node ∈ s.stack
    · rw [dfs, if_pos hstk] at hv ⊢
      rcases hv with hv | hv
      · exact absurd hv hnA
      · exact absurd hv hnB
    · by_cases hvis : node ∈ s.visited
      · rw [dfs, if_neg hstk, if_pos hvis] at hv ⊢
        rcases hv with hv | hv
        · exact absurd hv hnA
        · exact absurd hv hnB
      · rw [dfs, if_neg hstk, if_neg hvis] at hv ⊢
        have hcount1 :
            (univ.filter (fun x => x ∉ (dfs_pre node s).visited)).length < fuel := by
          have hlt := unvisited_count_snoc_lt univ s.visited node hnodeu hvis
          show (univ.filter (fun x => x ∉ s.visited ++ [node])).length < fuel
          omega
        by_cases hnA2 : node = A
        · subst hnA2
          obtain ⟨l1, l2, hsplit⟩ := List.append_of_mem
            ((mem_outgoing mgr node e1).mpr ⟨he1, hs1⟩)
          rw [hsplit, List.foldl_append, List.foldl_cons, ht1]
          generalize hst1 : (l1.foldl
            (fun st e => dfs mgr fuel e.target_model (path ++ [node]) st)
            (dfs_pre node s)) = st1
          have hstack_st1 : st1.stack = s.stack ++ [node] := by
            rw [← hst1]
            exact (dfs_fold_frame mgr fuel (path ++ [node]) l1 (dfs_pre node s)).1
          have hsup_st1 : ∀ x ∈ (dfs_pre node s).visited, x ∈ st1.visited := by
            intro x hx
            rw [← hst1]
            exact ((dfs_fold_frame mgr fuel (path ++ [node]) l1
              (dfs_pre node s)).2.1).subset hx
          have hcount_st1 : (univ.filter (fun x => x ∉ st1.visited)).length < fuel :=
            lt_of_le_of_lt
              (unvisited_count_mono univ (dfs_pre node s).visited st1.visited hsup_st1)
              hcount1
          have hstack_iff_st1 : ∀ x, x ∈ st1.stack ↔ x ∈ path ++ [node] := by
            intro x
            rw [hstack_st1]
            simp only [List.mem_append, List.mem_singleton]
            constructor
            · rintro (hx | hx)
              · exact Or.inl ((hstack x).mp hx)
              · exact Or.inr hx
            · rintro (hx | hx)
              · exact Or.inl ((hstack x).mpr hx)
              · exact Or.inr hx
          have hl1 : (∃ c ∈ st1.cycles, node ∈ c ∧ B ∈ c) ∨ B ∉ st1.visited := by
            rw [← hst1]
            have hgen : ∀ (l : List RelationshipEdge) (st : DfsState),
                (∀ f ∈ l, f ∈ mgr.edges) →
                st.stack = s.stack ++ [node] →
                (∀ x ∈ (dfs_pre node s).visited, x ∈ st.visited) →
                ((∃ c ∈ st.cycles, node ∈ c ∧ B ∈ c) ∨ B ∉ st.visited) →
                ((∃ c ∈ (l.foldl
                  (fun st e => dfs mgr fuel e.target_model (path ++ [node]) st)
                  st).cycles, node ∈ c ∧ B ∈ c) ∨
                 B ∉ (l.foldl
                  (fun st e => dfs mgr fuel e.target_model (path ++ [node]) st)
                  st).visited) := by
              intro l
              induction l with
              | nil =>
                intro st _ _ _ hd
                exact hd
              | cons f fs ihl =>
                intro st hedges hstk2 hsup hd
                simp only [List.foldl_cons]
                have hframe := dfs_frame mgr fuel f.target_model (path ++ [node]) st
                rcases hd with hgood | hBst
                · apply ihl
                  · intro g hg
                    exact hedges g (List.mem_cons_of_mem _ hg)
                  · rw [hframe.1, hstk2]
                  · intro x hx
                    exact (hframe.2.1).subset (hsup x hx)
                  · left
                    obtain ⟨c, hc, hca, hcb⟩ := hgood
                    exact ⟨c, (hframe.2.2).subset hc, hca, hcb⟩
                · by_cases hB2 : B ∈ (dfs mgr fuel f.target_model
                      (path ++ [node]) st).visited
                  · have hstack2 : ∀ x, x ∈ st.stack ↔ x ∈ path ++ [node] := by
                      intro x
                      rw [hstk2]
                      simp only [List.mem_append, List.mem_singleton]
                      constructor
                      · rintro (hx | hx)
                        · exact Or.inl ((hstack x).mp hx)
                        · exact Or.inr hx
                      · rintro (hx | hx)
                        · exact Or.inl ((hstack x).mpr hx)
                        · exact Or.inr hx
                    have hcount2 :
                        (univ.filter (fun x => x ∉ st.visited)).length < fuel :=
                      lt_of_le_of_lt
                        (unvisited_count_mono univ (dfs_pre node s).visited
                          st.visited hsup) hcount1
                    obtain ⟨c, hc, hcb, hca⟩ := dfs_key mgr univ B node e2 he2 hs2 ht2
                      hedget fuel f.target_model (path ++ [node]) st
                      (hedget f (hedges f (List.mem_cons_self ..))) hcount2 hstack2
                      (Or.inr (List.mem_append_right _ (List.mem_singleton.mpr rfl)))
                      hBst hB2
                    apply ihl
                    · intro g hg
                      exact hedges g (List.mem_cons_of_mem _ hg)
                    · rw [hframe.1, hstk2]
                    · intro x hx
                      exact (hframe.2.1).subset (hsup x hx)
                    · exact Or.inl ⟨c, hc, hca, hcb⟩
                  · apply ihl
                    · intro g hg
                      exact hedges g (List.mem_cons_of_mem _ hg)
                    · rw [hframe.1, hstk2]
                    · intro x hx
                      exact (hframe.2.1).subset (hsup x hx)
                    · exact Or.inr hB2
            refine hgen l1 (dfs_pre node s) ?_ rfl (fun x hx => hx) (Or.inr ?_)
            · intro f hf
              have : f ∈ get_outgoing_edges mgr node := by
                rw [hsplit]
                exact List.mem_append_left _ hf
              exact ((mem_outgoing mgr node f).mp this).1
            · intro hc
              rcases List.mem_append.mp hc with hm | hm
              · exact hnB hm
              · exact hAB ((List.mem_singleton.mp hm).symm)
          rcases hl1 with hgood | hBnot
          · obtain ⟨c, hc, hca, hcb⟩ := hgood
            refine ⟨c, ?_, hca, hcb⟩
            apply ((dfs_fold_frame mgr fuel (path ++ [node]) l2 _).2.2).subset
            exact ((dfs_frame mgr fuel B (path ++ [node]) st1).2.2).subset hc
          · have hBstk : B ∉ st1.stack := by
              rw [hstack_st1]
              intro hc
              rcases List.mem_append.mp hc with hm | hm
              · exact hnB (hsub B hm)
              · exact hAB ((List.mem_singleton.mp hm).symm)
            have hfuelpos : fuel ≠ 0 := by omega
            obtain ⟨k, hk⟩ := Nat.exists_eq_succ_of_ne_zero hfuelpos
            subst hk
            have hBvis : B ∈ (dfs mgr (k + 1) B (path ++ [node]) st1).visited := by
              rw [dfs, if_neg hBstk, if_neg hBnot]
              show B ∈ (dfs_post B _).visited
              refine ((dfs_fold_frame mgr k (path ++ [node] ++ [B]) _ _).2.1).subset ?_
              show B ∈ st1.visited ++ [B]
              exact List.mem_append_right _ (List.mem_singleton.mpr rfl)
            obtain ⟨c, hc, hcb, hca⟩ := dfs_key mgr univ B node e2 he2 hs2 ht2 hedget
              (k + 1) B (path ++ [node]) st1 (ht1 ▸ hedget e1 he1) hcount_st1
              hstack_iff_st1
              (Or.inr (List.mem_append_right _ (List.mem_singleton.mpr rfl)))
              hBnot hBvis
            refine ⟨c, ?_, hca, hcb⟩
            apply ((dfs_fold_frame mgr (k + 1) (path ++ [node]) l2 _).2.2).subset
            exact hc
        · by_cases hnB2 : node = B
          · subst hnB2
            obtain ⟨l1, l2, hsplit⟩ := List.append_of_mem
              ((mem_outgoing mgr node e2).mpr ⟨he2, hs2⟩)
            rw [hsplit, List.foldl_append, List.foldl_cons, ht2]
            generalize hst1 : (l1.foldl
              (fun st e => dfs mgr fuel e.target_model (path ++ [node]) st)
              (dfs_pre node s)) = st1
            have hstack_st1 : st1.stack = s.stack ++ [node] := by
              rw [← hst1]
              exact (dfs_fold_frame mgr fuel (path ++ [node]) l1 (dfs_pre node s)).1
            have hsup_st1 : ∀ x ∈ (dfs_pre node s).visited, x ∈ st1.visited := by
              intro x hx
              rw [← hst1]
              exact ((dfs_fold_frame mgr fuel (path ++ [node]) l1
                (dfs_pre node s)).2.1).subset hx
            have hcount_st1 : (univ.filter (fun x => x ∉ st1.visited)).length < fuel :=
              lt_of_le_of_lt
                (unvisited_count_mono univ (dfs_pre node s).visited st1.visited hsup_st1)
                hcount1
            have hstack_iff_st1 : ∀ x, x ∈ st1.stack ↔ x ∈ path ++ [node] := by
              intro x
              rw [hstack_st1]
              simp only [List.mem_append, List.mem_singleton]
              constructor
              · rintro (hx | hx)
                · exact Or.inl ((hstack x).mp hx)
                · exact Or.inr hx
              · rintro (hx | hx)
                · exact Or.inl ((hstack x).mpr hx)
                · exact Or.inr hx
            have hl1 : (∃ c ∈ st1.cycles, A ∈ c ∧ node ∈ c) ∨ A ∉ st1.visited := by
              rw [← hst1]
              have hgen : ∀ (l : List RelationshipEdge) (st : DfsState),
                  (∀ f ∈ l, f ∈ mgr.edges) →
                  st.stack = s.stack ++ [node] →
                  (∀ x ∈ (dfs_pre node s).visited, x ∈ st.visited) →
                  ((∃ c ∈ st.cycles, A ∈ c ∧ node ∈ c) ∨ A ∉ st.visited) →
                  ((∃ c ∈ (l.foldl
                    (fun st e => dfs mgr fuel e.target_model (path ++ [node]) st)
                    st).cycles, A ∈ c ∧ node ∈ c) ∨
                   A ∉ (l.foldl
                    (fun st e => dfs mgr fuel e.target_model (path ++ [node]) st)
                    st).visited) := by
                intro l
                induction l with
                | nil =>
                  intro st _ _ _ hd
                  exact hd
                | cons f fs ihl =>
                  intro st hedges hstk2 hsup hd
                  simp only [List.foldl_cons]
                  have hframe := dfs_frame mgr fuel f.target_model (path ++ [node]) st
                  rcases hd with hgood | hAst
                  · apply ihl
                    · intro g hg
                      exact hedges g (List.mem_cons_of_mem _ hg)
                    · rw [hframe.1, hstk2]
                    · intro x hx
                      exact (hframe.2.1).subset (hsup x hx)
                    · left
                      obtain ⟨c, hc, hca, hcb⟩ := hgood
                      exact ⟨c, (hframe.2.2).subset hc, hca, hcb⟩
                  · by_cases hA2 : A ∈ (dfs mgr fuel f.target_model
                        (path ++ [node]) st).visited
                    · have hstack2 : ∀ x, x ∈ st.stack ↔ x ∈ path ++ [node] := by
                        intro x
                        rw [hstk2]
                        simp only [List.mem_append, List.mem_singleton]
                        constructor
                        · rintro (hx | hx)
                          · exact Or.inl ((hstack x).mp hx)
                          · exact Or.inr hx
                        · rintro (hx | hx)
                          · exact Or.inl ((hstack x).mpr hx)
                          · exact Or.inr hx
                      have hcount2 :
                          (univ.filter (fun x => x ∉ st.visited)).length < fuel :=
                        lt_of_le_of_lt
                          (unvisited_count_mono univ (dfs_pre node s).visited
                            st.visited hsup) hcount1
                      obtain ⟨c, hc, hca, hcb⟩ := dfs_key mgr univ A node e1 he1 hs1 ht1
                        hedget fuel f.target_model (path ++ [node]) st
                        (hedget f (hedges f (List.mem_cons_self ..))) hcount2 hstack2
                        (Or.inr (List.mem_append_right _ (List.mem_singleton.mpr rfl)))
                        hAst hA2
                      apply ihl
                      · intro g hg
                        exact hedges g (List.mem_cons_of_mem _ hg)
                      · rw [hframe.1, hstk2]
                      · intro x hx
                        exact (hframe.2.1).subset (hsup x hx)
                      · exact Or.inl ⟨c, hc, hca, hcb⟩
                    · apply ihl
                      · intro g hg
                        exact hedges g (List.mem_cons_of_mem _ hg)
                      · rw [hframe.1, hstk2]
                      · intro x hx
                        exact (hframe.2.1).subset (hsup x hx)
                      · exact Or.inr hA2
              refine hgen l1 (dfs_pre node s) ?_ rfl (fun x hx => hx) (Or.inr ?_)
              · intro f hf
                have : f ∈ get_outgoing_edges mgr node := by
                  rw [hsplit]
                  exact List.mem_append_left _ hf
                exact ((mem_outgoing mgr node f).mp this).1
              · intro hc
                rcases List.mem_append.mp hc with hm | hm
                · exact hnA hm
                · exact hAB (List.mem_singleton.mp hm)
            rcases hl1 with hgood | hAnot
            · obtain ⟨c, hc, hca, hcb⟩ := hgood
              refine ⟨c, ?_, hca, hcb⟩
              apply ((dfs_fold_frame mgr fuel (path ++ [node]) l2 _).2.2).subset
              exact ((dfs_frame mgr fuel A (path ++ [node]) st1).2.2).subset hc
            · have hAstk : A ∉ st1.stack := by
                rw [hstack_st1]
                intro hc
                rcases List.mem_append.mp hc with hm | hm
                · exact hnA (hsub A hm)
                · exact hAB (List.mem_singleton.mp hm)
              have hfuelpos : fuel ≠ 0 := by omega
              obtain ⟨k, hk⟩ := Nat.exists_eq_succ_of_ne_zero hfuelpos
              subst hk
              have hAvis : A ∈ (dfs mgr (k + 1) A (path ++ [node]) st1).visited := by
                rw [dfs, if_neg hAstk, if_neg hAnot]
                show A ∈ (dfs_post A _).visited
                refine ((dfs_fold_frame mgr k (path ++ [node] ++ [A]) _ _).2.1).subset ?_
                show A ∈ st1.visited ++ [A]
                exact List.mem_append_right _ (List.mem_singleton.mpr rfl)
              obtain ⟨c, hc, hca, hcb⟩ := dfs_key mgr univ A node e1 he1 hs1 ht1 hedget
                (k + 1) A (path ++ [node]) st1 (ht2 ▸ hedget e2 he2) hcount_st1
                hstack_iff_st1
                (Or.inr (List.mem_append_right _ (List.mem_singleton.mpr rfl)))
                hAnot hAvis
              refine ⟨c, ?_, hca, hcb⟩
              apply ((dfs_fold_frame mgr (k + 1) (path ++ [node]) l2 _).2.2).subset
              exact hc
          · have hfold : ∀ (l : List RelationshipEdge) (st : DfsState),
                (∀ f ∈ l, f ∈ mgr.edges) →
                st.stack = s.stack ++ [node] →
                (∀ x ∈ (dfs_pre node s).visited, x ∈ st.visited) →
                ((∃ c ∈ st.cycles, A ∈ c ∧ B ∈ c) ∨
                  (A ∉ st.visited ∧ B ∉ st.visited)) →
                (A ∈ (l.foldl
                  (fun st e => dfs mgr fuel e.target_model (path ++ [node]) st)
                  st).visited ∨
                 B ∈ (l.foldl
                  (fun st e => dfs mgr fuel e.target_model (path ++ [node]) st)
                  st).visited) →
                ∃ c ∈ (l.foldl
                  (fun st e => dfs mgr fuel e.target_model (path ++ [node]) st)
                  st).cycles, A ∈ c ∧ B ∈ c := by
              intro l
              induction l with
              | nil =>
                intro st _ _ _ hd hfin
                rcases hd with hgood | ⟨hA3, hB3⟩
                · exact hgood
                · rcases hfin with hfin | hfin
                  · exact absurd hfin hA3
                  · exact absurd hfin hB3
              | cons f fs ihl =>
                intro st hedges hstk2 hsup hd hfin
                simp only [List.foldl_cons] at hfin ⊢
                have hframe := dfs_frame mgr fuel f.target_model (path ++ [node]) st
                rcases hd with hgood | ⟨hA3, hB3⟩
                · apply ihl
                  · intro g hg
                    exact hedges g (List.mem_cons_of_mem _ hg)
                  · rw [hframe.1, hstk2]
                  · intro x hx
                    exact (hframe.2.1).subset (hsup x hx)
                  · left
                    obtain ⟨c, hc, hca, hcb⟩ := hgood
                    exact ⟨c, (hframe.2.2).subset hc, hca, hcb⟩
                  · exact hfin
                · by_cases hAB2 : A ∈ (dfs mgr fuel f.target_model
                      (path ++ [node]) st).visited ∨
                    B ∈ (dfs mgr fuel f.target_model (path ++ [node]) st).visited
                  · have hstack2 : ∀ x, x ∈ st.stack ↔ x ∈ path ++ [node] := by
                      intro x
                      rw [hstk2]
                      simp only [List.mem_append, List.mem_singleton]
                      constructor
                      · rintro (hx | hx)
                        · exact Or.inl ((hstack x).mp hx)
                        · exact Or.inr hx
                      · rintro (hx | hx)
                        · exact Or.inl ((hstack x).mpr hx)
                        · exact Or.inr hx
                    have hsub2 : ∀ x ∈ st.stack, x ∈ st.visited := by
                      intro x hx
                      rw [hstk2] at hx
                      rcases List.mem_append.mp hx with hm | hm
                      · exact hsup x (List.mem_append_left _ (hsub x hm))
                      · exact hsup x (List.mem_append_right _ hm)
                    have hcount2 :
                        (univ.filter (fun x => x ∉ st.visited)).length < fuel :=
                      lt_of_le_of_lt
                        (unvisited_count_mono univ (dfs_pre node s).visited
                          st.visited hsup) hcount1
                    obtain ⟨c, hc, hca, hcb⟩ := ih f.target_model (path ++ [node]) st
                      (hedget f (hedges f (List.mem_cons_self ..))) hcount2 hstack2
                      hsub2 hA3 hB3 hAB2
                    apply ihl
                    · intro g hg
                      exact hedges g (List.mem_cons_of_mem _ hg)
                    · rw [hframe.1, hstk2]
                    · intro x hx
                      exact (hframe.2.1).subset (hsup x hx)
                    · left
                      exact ⟨c, hc, hca, hcb⟩
                    · exact hfin
                  · push_neg at hAB2
                    apply ihl
                    · intro g hg
                      exact hedges g (List.mem_cons_of_mem _ hg)
                    · rw [hframe.1, hstk2]
                    · intro x hx
                      exact (hframe.2.1).subset (hsup x hx)
                    · exact Or.inr ⟨hAB2.1, hAB2.2⟩
                    · exact hfin
            refine hfold (get_outgoing_edges mgr node) (dfs_pre node s) ?_ rfl
              (fun x hx => hx) (Or.inr ⟨?_, ?_⟩) hv
            · intro f hf
              exact ((mem_outgoing mgr node f).mp hf).1
            · intro hc
              rcases List.mem_append.mp hc with hm | hm
              · exact hnA hm
              · exact hnA2 ((List.mem_singleton.mp hm).symm)
            · intro hc
              rcases List.mem_append.mp hc with hm | hm
              · exact hnB hm
              · exact hnB2 ((List.mem_singleton.mp hm).symm)

theorem detect_fold_frame (mgr : ModelRelationshipManager) (N : Nat) :
    ∀ (l : List String) (s : DfsState),
      (l.foldl (fun s n => if n ∈ s.visited then s
        else dfs mgr N n [] s) s).stack = s.stack ∧
      s.visited <+: (l.foldl (fun s n => if n ∈ s.visited then s
        else dfs mgr N n [] s) s).visited ∧
      s.cycles <+: (l.foldl (fun s n => if n ∈ s.visited then s
        else dfs mgr N n [] s) s).cycles := by
  intro l
  induction l with
  | nil =>
    intro s
    exact ⟨rfl, List.prefix_refl _, List.prefix_refl _⟩
  | cons m ms ih =>
    intro s
    simp only [List.foldl_cons]
    by_cases hm : m ∈ s.visited
    · rw [if_pos hm]
      exact ih s
    · rw [if_neg hm]
      obtain ⟨h1, h2, h3⟩ := dfs_frame mgr N m [] s
      obtain ⟨g1, g2, g3⟩ := ih (dfs mgr N m [] s)
      exact ⟨g1.trans h1, h2.trans g2, h3.trans g3⟩

theorem detect_all_visited (mgr : ModelRelationshipManager) (K : Nat) :
    ∀ (l : List String) (s : DfsState), s.stack = [] →
      ∀ n ∈ l, n ∈ (l.foldl (fun s n => if n ∈ s.visited then s
        else dfs mgr (K + 1) n [] s) s).visited := by
  intro l
  induction l with
  | nil =>
    intro s _ n hn
    exact absurd hn (List.not_mem_nil n)
  | cons m ms ih =>
    intro s hstk n hn
    simp only [List.foldl_cons]
    have hms : m ∈ (if m ∈ s.visited then s else dfs mgr (K + 1) m [] s).visited := by
      by_cases hm : m ∈ s.visited
      · rw [if_pos hm]
        exact hm
      · rw [if_neg hm]
        have hmstk : m ∉ s.stack := by
          rw [hstk]
          exact List.not_mem_nil m
        rw [dfs, if_neg hmstk, if_neg hm]
        show m ∈ (dfs_post m _).visited
        refine ((dfs_fold_frame mgr K ([] ++ [m]) _ _).2.1).subset ?_
        show m ∈ s.visited ++ [m]
        exact List.mem_append_right _ (List.mem_singleton.mpr rfl)
    have hstk2 : (if m ∈ s.visited then s else dfs mgr (K + 1) m [] s).stack = [] := by
      by_cases hm : m ∈ s.visited
      · rw [if_pos hm]
        exact hstk
      · rw [if_neg hm]
        rw [(dfs_frame mgr (K + 1) m [] s).1]
        exact hstk
    rcases List.mem_cons.mp hn with hn | hn
    · subst hn
      exact ((detect_fold_frame mgr (K + 1) ms _).2.1).subset hms
    · exact ih _ hstk2 n hn

/-- C9: detect_cycles is total by construction (absence of cycles is the
empty list, never an exception); it returns the empty list on every acyclic
relationship graph; and whenever the graph has a two-cycle A→B→A with A a
registered model name, some reported cycle contains both A and B. -/
theorem c9_detect_cycles (mgr : ModelRelationshipManager) :
    (Acyclic mgr → detect_cycles mgr = []) ∧
    (∀ A B : String, A ∈ manager_keys mgr →
      has_edge mgr A B → has_edge mgr B A →
      ∃ c ∈ detect_cycles mgr, A ∈ c ∧ B ∈ c) := by
  constructor
  · intro hac
    have hsound : ∀ c ∈ detect_cycles mgr, cycle_ok mgr c := by
      have hgen : ∀ (l : List String) (s : DfsState), s.stack = [] →
          (∀ c ∈ s.cycles, cycle_ok mgr c) →
          ∀ c ∈ (l.foldl (fun s n => if n ∈ s.visited then s
            else dfs mgr (mgr.nodes.length + mgr.edges.length + 1) n [] s)
            s).cycles, cycle_ok mgr c := by
        intro l
        induction l with
        | nil =>
          intro s _ hs
          exact hs
        | cons m ms ih =>
          intro s hstk hs
          simp only [List.foldl_cons]
          by_cases hm : m ∈ s.visited
          · rw [if_pos hm]
            exact ih s hstk hs
          · rw [if_neg hm]
            refine ih _ ?_ ?_
            · rw [(dfs_frame mgr _ m [] s).1]
              exact hstk
            · exact dfs_cycles_sound mgr _ m [] s
                (fun x => by rw [hstk]) trivial hs
      exact hgen (mgr.nodes.map Prod.fst)
        { cycles := [], visited := [], stack := [] } rfl
        (fun c hc => absurd hc (List.not_mem_nil c))
    rw [List.eq_nil_iff_forall_not_mem]
    intro c hc
    obtain ⟨a, l, _, _, hw, hlast⟩ := hsound c hc
    exact hac a l hw hlast
  · intro A B hA hAB1 hBA1
    obtain ⟨e1, he1, hs1, ht1⟩ := hAB1
    obtain ⟨e2, he2, hs2, ht2⟩ := hBA1
    have hedget : ∀ f ∈ mgr.edges, f.target_model ∈
        manager_keys mgr ++ mgr.edges.map (fun e => e.target_model) :=
      fun f hf => List.mem_append_right _ (List.mem_map.mpr ⟨f, hf, rfl⟩)
    have hcountall : ∀ v : List String,
        (((manager_keys mgr ++ mgr.edges.map (fun e => e.target_model)).filter
          (fun x => x ∉ v)).length) < mgr.nodes.length + mgr.edges.length + 1 := by
      intro v
      have h1 := (List.filter_sublist
        (manager_keys mgr ++ mgr.edges.map (fun e => e.target_model))
        (p := fun x => x ∉ v)).length_le
      have h2 : (manager_keys mgr ++
          mgr.edges.map (fun e => e.target_model)).length =
          mgr.nodes.length + mgr.edges.length := by
        simp [manager_keys]
      omega
    by_cases hABeq : A = B
    · subst hABeq
      have hJ : ∀ (l : List String),
          (∀ n ∈ l, n ∈ manager_keys mgr ++
            mgr.edges.map (fun e => e.target_model)) →
          ∀ (s : DfsState), s.stack = [] →
          ((∃ c ∈ s.cycles, A ∈ c) ∨ A ∉ s.visited) →
          ((∃ c ∈ (l.foldl (fun s n => if n ∈ s.visited then s
              else dfs mgr (mgr.nodes.length + mgr.edges.length + 1) n [] s)
              s).cycles, A ∈ c) ∨
            A ∉ (l.foldl (fun s n => if n ∈ s.visited then s
              else dfs mgr (mgr.nodes.length + mgr.edges.length + 1) n [] s)
              s).visited) := by
        intro l
        induction l with
        | nil =>
          intro _ s _ hd
          exact hd
        | cons m ms ih =>
          intro hmem s hstk hd
          simp only [List.foldl_cons]
          by_cases hm : m ∈ s.visited
          · rw [if_pos hm]
            exact ih (fun n hn => hmem n (List.mem_cons_of_mem _ hn)) s hstk hd
          · rw [if_neg hm]
            have hstk2 : (dfs mgr (mgr.nodes.length + mgr.edges.length + 1)
                m [] s).stack = [] := by
              rw [(dfs_frame mgr _ m [] s).1]
              exact hstk
            rcases hd with hgood | hnA
            · refine ih (fun n hn => hmem n (List.mem_cons_of_mem _ hn)) _ hstk2
                (Or.inl ?_)
              obtain ⟨c, hc, hca⟩ := hgood
              exact ⟨c, ((dfs_frame mgr _ m [] s).2.2).subset hc, hca⟩
            · by_cases hv2 : A ∈ (dfs mgr
                  (mgr.nodes.length + mgr.edges.length + 1) m [] s).visited
              · obtain ⟨c, hc, hca⟩ := dfs_key_start mgr
                  (manager_keys mgr ++ mgr.edges.map (fun e => e.target_model))
                  A e1 he1 hs1 ht1 hedget
                  (mgr.nodes.length + mgr.edges.length + 1) m [] s
                  (hmem m (List.mem_cons_self ..))
                  (hcountall s.visited)
                  (fun x => by rw [hstk])
                  hnA hv2
                exact ih (fun n hn => hmem n (List.mem_cons_of_mem _ hn)) _ hstk2
                  (Or.inl ⟨c, hc, hca⟩)
              · exact ih (fun n hn => hmem n (List.mem_cons_of_mem _ hn)) _ hstk2
                  (Or.inr hv2)
      have hres := hJ (mgr.nodes.map Prod.fst)
        (fun n hn => List.mem_append_left _ hn)
        { cycles := [], visited := [], stack := [] } rfl
        (Or.inr (List.not_mem_nil A))
      rcases hres with hgood | hnA2
      · obtain ⟨c, hc, hca⟩ := hgood
        exact ⟨c, hc, hca, hca⟩
      · exact absurd (detect_all_visited mgr
          (mgr.nodes.length + mgr.edges.length) (mgr.nodes.map Prod.fst)
          { cycles := [], visited := [], stack := [] } rfl A hA) hnA2
    · have hJ : ∀ (l : List String),
          (∀ n ∈ l, n ∈ manager_keys mgr ++
            mgr.edges.map (fun e => e.target_model)) →
          ∀ (s : DfsState), s.stack = [] →
          ((∃ c ∈ s.cycles, A ∈ c ∧ B ∈ c) ∨
            (A ∉ s.visited ∧ B ∉ s.visited)) →
          ((∃ c ∈ (l.foldl (fun s n => if n ∈ s.visited then s
              else dfs mgr (mgr.nodes.length + mgr.edges.length + 1) n [] s)
              s).cycles, A ∈ c ∧ B ∈ c) ∨
            (A ∉ (l.foldl (fun s n => if n ∈ s.visited then s
              else dfs mgr (mgr.nodes.length + mgr.edges.length + 1) n [] s)
              s).visited ∧
             B ∉ (l.foldl (fun s n => if n ∈ s.visited then s
              else dfs mgr (mgr.nodes.length + mgr.edges.length + 1) n [] s)
              s).visited)) := by
        intro l
        induction l with
        | nil =>
          intro _ s _ hd
          exact hd
        | cons m ms ih =>
          intro hmem s hstk hd
          simp only [List.foldl_cons]
          by_cases hm : m ∈ s.visited
          · rw [if_pos hm]
            exact ih (fun n hn => hmem n (List.mem_cons_of_mem _ hn)) s hstk hd
          · rw [if_neg hm]
            have hstk2 : (dfs mgr (mgr.nodes.length + mgr.edges.length + 1)
                m [] s).stack = [] := by
              rw [(dfs_frame mgr _ m [] s).1]
              exact hstk
            rcases hd with hgood | ⟨hnA, hnB⟩
            · refine ih (fun n hn => hmem n (List.mem_cons_of_mem _ hn)) _ hstk2
                (Or.inl ?_)
              obtain ⟨c, hc, hca, hcb⟩ := hgood
              exact ⟨c, ((dfs_frame mgr _ m [] s).2.2).subset hc, hca, hcb⟩
            · by_cases hv2 : A ∈ (dfs mgr
                  (mgr.nodes.length + mgr.edges.length + 1) m [] s).visited ∨
                  B ∈ (dfs mgr
                  (mgr.nodes.length + mgr.edges.length + 1) m [] s).visited
              · obtain ⟨c, hc, hca, hcb⟩ := dfs_key0 mgr
                  (manager_keys mgr ++ mgr.edges.map (fun e => e.target_model))
                  A B e1 e2 hABeq he1 hs1 ht1 he2 hs2 ht2 hedget
                  (mgr.nodes.length + mgr.edges.length + 1) m [] s
                  (hmem m (List.mem_cons_self ..))
                  (hcountall s.visited)
                  (fun x => by rw [hstk])
                  (fun x hx => absurd (hstk ▸ hx) (List.not_mem_nil x))
                  hnA hnB hv2
                exact ih (fun n hn => hmem n (List.mem_cons_of_mem _ hn)) _ hstk2
                  (Or.inl ⟨c, hc, hca, hcb⟩)
              · push_neg at hv2
                exact ih (fun n hn => hmem n (List.mem_cons_of_mem _ hn)) _ hstk2
                  (Or.inr ⟨hv2.1, hv2.2⟩)
      have hres := hJ (mgr.nodes.map Prod.fst)
        (fun n hn => List.mem_append_left _ hn)
        { cycles := [], visited := [], stack := [] } rfl
        (Or.inr ⟨List.not_mem_nil A, List.not_mem_nil B⟩)
      rcases hres with hgood | ⟨hnA2, _⟩
      · obtain ⟨c, hc, hca, hcb⟩ := hgood
        exact ⟨c, hc, hca, hcb⟩
      · exact absurd (detect_all_visited mgr
          (mgr.nodes.length + mgr.edges.length) (mgr.nodes.map Prod.fst)
          { cycles := [], visited := [], stack := [] } rfl A hA) hnA2

theorem c9_detect_cycles_witness :
    ∃ c ∈ detect_cycles exMgr, "User" ∈ c ∧ "Post" ∈ c :=
  (c9_detect_cycles exMgr).2 "User" "Post" (by decide)
    ⟨exEdgePosts, by decide, rfl, rfl⟩
    ⟨exEdgeUser, by decide, rfl, rfl⟩

/-- A database row: primary key, the column payload, and the two
bookkeeping timestamps every model of the code base carries (BaseModel
updated_at / deleted_at), kept apart from the payload because the
repository reads and writes them directly. -/
structure Row where
  id : Nat
  fields : List (String × Value)
  updated_at : Int
  deleted_at : Option Int

/-- The state the repository sees: one row list per model name, the
junction-table links (table name, owner id, related id) inserted by
_handle_many_to_many, the autoincrement counter handed out at flush, and
the clock returned by datetime.utcnow(). -/
structure DB where
  tables : List (String × List Row)
  links : List (String × Nat × Nat)
  next_id : Nat
  now : Int

/-- Python dict assignment d[k] = v: replace the binding in place, or add
it at the end (insertion order). -/
def assoc_set {β : Type} (k : String) (v : β) :
    List (String × β) → List (String × β)
  | [] => [(k, v)]
  | (k1, w) :: rest =>
    if k1 = k then (k1, v) :: rest else (k1, w) :: assoc_set k v rest

def db_table (db : DB) (model : String) : List Row :=
  (assoc_get model db.tables).getD []

def db_set_table (db : DB) (model : String) (rows : List Row) : DB :=
  { db with tables := assoc_set model rows db.tables }

/-- Mutating one ORM instance and committing: rewrite the row with the
matching primary key. -/
def db_update_row (db : DB) (model : String) (id : Nat) (f : Row → Row) : DB :=
  db_set_table db model
    ((db_table db model).map (fun r => if r.id = id then f r else r))

def row_set_field (r : Row) (k : String) (v : Value) : Row :=
  { r with fields := assoc_set k v r.fields }

/-- db.add + await db.flush(): append the new row, hand out the next
primary key, stamp updated_at with the clock. -/
def db_insert (db : DB) (model : String) (fields : List (String × Value)) :
    Nat × DB :=
  (db.next_id,
    { db_set_table db model (db_table db model ++
        [{ id := db.next_id, fields := fields, updated_at := db.now,
           deleted_at := none }]) with
      next_id := db.next_id + 1 })

/-- BaseRepository.get_by_id (repository_impl.py lines 76-85) at the
default include_deleted = False: the row with the given id whose
deleted_at is null. -/
def get_by_id (db : DB) (model : String) (id : Nat) : Option Row :=
  (db_table db model).find? (fun r => r.id == id && r.deleted_at == none)

/-- DefaultOptimisticLockValidator.parse_timestamp
(optimistic_lock_validator.py lines 19-42) on a payload value: a parsable
ISO-8601 timestamp string (`vtime t`) parses to its value t in
microseconds; anything else raises the HTTP 400 invalid-timestamp error
the method converts every ValueError into. -/
def parse_timestamp : Value → Except DataErr Int
  | .vtime t => .ok t
  | _ => .error .invalidTimestamp

/-- ModelNode.get_relationship_type (model_relationship_manager.py lines
48-54) behind the model_utils.get_relationship_type wrapper (model_utils.py
lines 57-73): None for an unknown model or relationship, otherwise the
application type derived from the SQLAlchemy direction and uselist flag. -/
def get_relationship_type (mgr : ModelRelationshipManager)
    (model_name rel_name : String) : Option RelationshipType :=
  match get_model_node mgr model_name with
  | none => none
  | some node =>
    match assoc_get rel_name node.relationships with
    | none => none
    | some rel_prop => some (get_application_type rel_prop.direction rel_prop.uselist)

/-- ModelNode.get_related_model (lines 56-66) behind the
model_utils.get_related_model wrapper (lines 76-92), reduced to the related
model's name (rel_prop.mapper.class_.__name__). -/
def get_related_model (mgr : ModelRelationshipManager)
    (model_name rel_name : String) : Option String :=
  match get_model_node mgr model_name with
  | none => none
  | some node => (assoc_get rel_name node.relationships).map (fun rp => rp.target)

/-- The column filter of every create handler (e.g. repository_impl.py
lines 710-713): keep only the payload keys that are table columns of the
related model. -/
def filter_columns (node : ModelNode) (data : List (String × Value)) :
    List (String × Value) :=
  data.filter (fun kv => node.columns.contains kv.1)

/-- Python str.lower() on the ASCII model names of the
f"{model_name.lower()}_id" foreign-key fields, written with structural
recursion so it evaluates. -/
def lower_name (s : String) : String :=
  String.mk (s.data.map Char.toLower)

/-- _get_junction_table (lines 1117-1127): hardcoded to the post_tags table
of Post.tags; every other relationship gets None and a warning. -/
def get_junction_table (model_name rel_name : String) : Option String :=
  if model_name = "Post" ∧ rel_name = "tags" then some "post_tags" else none

/-- _delete_existing_children (lines 1018-1042): soft-delete every child
row whose {parent_model.lower()}_id column equals the parent id.  Every
embedded model carries deleted_at, so the soft branch of line 1029 is
always the one taken; an unknown relationship only logs a warning. -/
def delete_existing_children (mgr : ModelRelationshipManager)
    (model_name : String) (parent_id : Nat) (rel_name : String) (db : DB) :
    DB :=
  match get_related_model mgr model_name rel_name with
  | none => db
  | some child_name =>
    db_set_table db child_name
      ((db_table db child_name).map (fun r =>
        match assoc_get (lower_name model_name ++ "_id") r.fields with
        | some (Value.vint fk) =>
          if fk = parent_id then { r with deleted_at := some db.now } else r
        | _ => r))

/-- _clear_many_to_many_relationships (lines 1057-1069): drop every
junction-table link owned by the instance; without a junction table only a
warning is logged. -/
def clear_many_to_many_relationships (model_name : String) (instance_id : Nat)
    (rel_name : String) (db : DB) : DB :=
  match get_junction_table model_name rel_name with
  | none => db
  | some jt =>
    { db with
      links := db.links.filter (fun l => !(l.1 == jt && l.2.1 == instance_id)) }

/-- _handle_one_to_many (lines 691-730), the create-path handler: for each
child dict, split main/nested data for the child model (line 706 calls
validate_nested_data, inlined here together with its unknown-model
ValueError), keep only column fields, set the {parent_model.lower()}_id
foreign key to the parent id (a dict assignment, so it lands last if new),
insert the child row, then recurse into the child's nested data through
_handle_child_nested_relationships (lines 841-849).  A non-list payload or
a non-dict item crashes the Python loop (typeError here). -/
def handle_one_to_many (mgr : ModelRelationshipManager)
    (recurse : String → Nat → List (String × Value) → DB → Except DataErr DB)
    (model_name : String) (parent_id : Nat) (children_data : Value)
    (child_name : String) (db : DB) : Except DataErr DB :=
  match children_data with
  | .vlist items =>
    items.foldlM (fun db child_data =>
      match child_data with
      | .vdict d =>
        match get_model_node mgr child_name with
        | none => .error (.valueError ("Model " ++ child_name ++ " not found"))
        | some child_node =>
          let mn := split_fields child_node d
          let filtered := filter_columns child_node mn.1
          let withFk := assoc_set (lower_name model_name ++ "_id")
            (Value.vint parent_id) filtered
          let ins := db_insert db child_name withFk
          if mn.2.isEmpty then .ok ins.2
          else recurse child_name ins.1 mn.2 ins.2
      | _ => .error .typeError) db
  | _ => .error .typeError

/-- _handle_many_to_one (lines 732-761): split and filter the parent dict,
create the parent row, set the {parent_model.lower()}_id foreign key on the
existing child instance (line 757, a mutation of the current record), then
recurse into the parent's nested data. -/
def handle_many_to_one (mgr : ModelRelationshipManager)
    (recurse : String → Nat → List (String × Value) → DB → Except DataErr DB)
    (model_name : String) (child_id : Nat) (parent_data : Value)
    (parent_name : String) (db : DB) : Except DataErr DB :=
  match parent_data with
  | .vdict d =>
    match get_model_node mgr parent_name with
    | none => .error (.valueError ("Model " ++ parent_name ++ " not found"))
    | some parent_node =>
      let mn := split_fields parent_node d
      let filtered := filter_columns parent_node mn.1
      let ins := db_insert db parent_name filtered
      let db3 := db_update_row ins.2 model_name child_id
        (fun r => row_set_field r (lower_name parent_name ++ "_id")
          (Value.vint ins.1))
      if mn.2.isEmpty then .ok db3
      else recurse parent_name ins.1 mn.2 db3
  | _ => .error .typeError

/-- _handle_one_to_one (lines 763-792): split and filter the related dict,
set the {self.model_name.lower()}_id foreign key to the owning instance id,
create the related row, then recurse into its nested data. -/
def handle_one_to_one (mgr : ModelRelationshipManager)
    (recurse : String → Nat → List (String × Value) → DB → Except DataErr DB)
    (model_name : String) (instance_id : Nat) (related_data : Value)
    (related_name : String) (db : DB) : Except DataErr DB :=
  match related_data with
  | .vdict d =>
    match get_model_node mgr related_name with
    | none => .error (.valueError ("Model " ++ related_name ++ " not found"))
    | some related_node =>
      let mn := split_fields related_node d
      let filtered := filter_columns related_node mn.1
      let withFk := assoc_set (lower_name model_name ++ "_id")
        (Value.vint instance_id) filtered
      let ins := db_insert db related_name withFk
      if mn.2.isEmpty then .ok ins.2
      else recurse related_name ins.1 mn.2 ins.2
  | _ => .error .typeError

/-- _handle_many_to_many (lines 794-839): create a row per item dict
(split, filter, insert, recurse into nested data), collect the created ids
in order, then — when _get_junction_table knows the relationship — append
one junction link ({owner.lower()}_id, {related.lower()}_id) per created
row; without a junction table the rows stay unlinked (warning only). -/
def handle_many_to_many (mgr : ModelRelationshipManager)
    (recurse : String → Nat → List (String × Value) → DB → Except DataErr DB)
    (model_name : String) (instance_id : Nat) (rel_name : String)
    (related_data : Value) (related_name : String) (db : DB) :
    Except DataErr DB :=
  match related_data with
  | .vlist items =>
    match items.foldlM (fun (acc : List Nat × DB) item_data =>
      match item_data with
      | .vdict d =>
        match get_model_node mgr related_name with
        | none =>
          Except.error (DataErr.valueError ("Model " ++ related_name ++ " not found"))
        | some related_node =>
          let mn := split_fields related_node d
          let filtered := filter_columns related_node mn.1
          let ins := db_insert acc.2 related_name filtered
          if mn.2.isEmpty then Except.ok (acc.1 ++ [ins.1], ins.2)
          else
            match recurse related_name ins.1 mn.2 ins.2 with
            | .error e => Except.error e
            | .ok db3 => Except.ok (acc.1 ++ [ins.1], db3)
      | _ => Except.error DataErr.typeError) ([], db) with
    | .error e => .error e
    | .ok acc =>
      match get_junction_table model_name rel_name with
      | some jt =>
        .ok { acc.2 with
                links := acc.2.links ++ acc.1.map (fun rid => (jt, instance_id, rid)) }
      | none => .ok acc.2
  | _ => .error .typeError

/-- _handle_nested_relationships (lines 641-666), the create-path
dispatcher: for each nested entry look up the relationship type and the
related model, skip unknown relationships with a warning, and dispatch on
the application relationship type.  The recursion through
_handle_child_nested_relationships is bounded by fuel (the Python code
recurses on strictly smaller payloads). -/
def handle_nested_relationships (mgr : ModelRelationshipManager) :
    Nat → String → Nat → List (String × Value) → DB → Except DataErr DB
  | 0, _, _, _, _ => .error .fuelOut
  | fuel + 1, model_name, instance_id, nested_data, db =>
    nested_data.foldlM (fun db kv =>
      match get_relationship_type mgr model_name kv.1,
            get_related_model mgr model_name kv.1 with
      | some rel_type, some related_name =>
        match rel_type with
        | .ONE_TO_MANY =>
          handle_one_to_many mgr (handle_nested_relationships mgr fuel)
            model_name instance_id kv.2 related_name db
        | .MANY_TO_ONE =>
          handle_many_to_one mgr (handle_nested_relationships mgr fuel)
            model_name instance_id kv.2 related_name db
        | .ONE_TO_ONE =>
          handle_one_to_one mgr (handle_nested_relationships mgr fuel)
            model_name instance_id kv.2 related_name db
        | .MANY_TO_MANY =>
          handle_many_to_many mgr (handle_nested_relationships mgr fuel)
            model_name instance_id kv.1 kv.2 related_name db
      | _, _ => .ok db) db

/-- _update_one_to_many (lines 852-871): replace soft-deletes the existing
children first, add goes straight to the create handler, merge is the
logging no-op _merge_one_to_many (lines 1044-1055); an unrecognized mode
falls through every branch and changes nothing. -/
def update_one_to_many (mgr : ModelRelationshipManager) (fuel : Nat)
    (model_name : String) (parent_id : Nat) (rel_name : String)
    (children_data : Value) (child_name : String) (sync_mode : String)
    (db : DB) : Except DataErr DB :=
  if sync_mode = "replace" then
    handle_one_to_many mgr (handle_nested_relationships mgr fuel) model_name
      parent_id children_data child_name
      (delete_existing_children mgr model_name parent_id rel_name db)
  else if sync_mode = "add" then
    handle_one_to_many mgr (handle_nested_relationships mgr fuel) model_name
      parent_id children_data child_name db
  else .ok db

/-- _update_many_to_one (lines 873-883): sync_mode is ignored, the create
handler runs unconditionally. -/
def update_many_to_one (mgr : ModelRelationshipManager) (fuel : Nat)
    (model_name : String) (child_id : Nat) (parent_data : Value)
    (parent_name : String) (sync_mode : String) (db : DB) :
    Except DataErr DB :=
  handle_many_to_one mgr (handle_nested_relationships mgr fuel) model_name
    child_id parent_data parent_name db

/-- _update_one_to_one (lines 885-895): sync_mode is ignored, the create
handler runs unconditionally. -/
def update_one_to_one (mgr : ModelRelationshipManager) (fuel : Nat)
    (model_name : String) (instance_id : Nat) (related_data : Value)
    (related_name : String) (sync_mode : String) (db : DB) :
    Except DataErr DB :=
  handle_one_to_one mgr (handle_nested_relationships mgr fuel) model_name
    instance_id related_data related_name db

/-- _update_many_to_many (lines 897-916): replace clears the junction links
first, add goes straight to the create handler, merge is the logging no-op
_merge_many_to_many (lines 1071-1082). -/
def update_many_to_many (mgr : ModelRelationshipManager) (fuel : Nat)
    (model_name : String) (instance_id : Nat) (rel_name : String)
    (related_data : Value) (related_name : String) (sync_mode : String)
    (db : DB) : Except DataErr DB :=
  if sync_mode = "replace" then
    handle_many_to_many mgr (handle_nested_relationships mgr fuel) model_name
      instance_id rel_name related_data related_name
      (clear_many_to_many_relationships model_name instance_id rel_name db)
  else if sync_mode = "add" then
    handle_many_to_many mgr (handle_nested_relationships mgr fuel) model_name
      instance_id rel_name related_data related_name db
  else .ok db

/-- _handle_nested_relationships_update (lines 668-689): the update-path
dispatcher, forwarding sync_mode to the per-type update helpers; unknown
relationships are skipped with a warning. -/
def handle_nested_relationships_update (mgr : ModelRelationshipManager)
    (fuel : Nat) (model_name : String) (instance_id : Nat)
    (nested_data : List (String × Value)) (sync_mode : String) (db : DB) :
    Except DataErr DB :=
  nested_data.foldlM (fun db kv =>
    match get_relationship_type mgr model_name kv.1,
          get_related_model mgr model_name kv.1 with
    | some rel_type, some related_name =>
      match rel_type with
      | .ONE_TO_MANY =>
        update_one_to_many mgr fuel model_name instance_id kv.1 kv.2
          related_name sync_mode db
      | .MANY_TO_ONE =>
        update_many_to_one mgr fuel model_name instance_id kv.2
          related_name sync_mode db
      | .ONE_TO_ONE =>
        update_one_to_one mgr fuel model_name instance_id kv.2
          related_name sync_mode db
      | .MANY_TO_MANY =>
        update_many_to_many mgr fuel model_name instance_id kv.1 kv.2
          related_name sync_mode db
    | _, _ => .ok db) db

/-- Lines 520-523 of update_with_optimistic_lock_and_relations: apply every
non-None main field that names an attribute of the record (embedded as the
column list) to the record. -/
def apply_main_updates (columns : List String) (r : Row)
    (main_data : List (String × Value)) : Row :=
  main_data.foldl (fun r kv =>
    match kv.2 with
    | .vnull => r
    | v => if columns.contains kv.1 then row_set_field r kv.1 v else r) r

/-- update_with_optimistic_lock_and_relations (lines 474-551).  Returns ok
none when the record does not exist (line 499).  When the payload carries a
non-null updated_at, line 511 compares the stored updated_at with the
parsed expected timestamp using exact `!=` — NOT the 1-second-tolerance
validator — and raises the 409 conflict on any difference; an unparsable
timestamp raises the invalid-timestamp error (the 400 of parse_timestamp;
the except ValueError at lines 514-518 is dead code because parse_timestamp
converts every ValueError itself).  Then the non-None main fields are
applied, the nested data is handed to the update dispatcher with the
HARDCODED mode "replace" (line 528) — the sync_mode parameter is never
used — updated_at is stamped with the clock and the transaction commits.
Every error path leaves the database untouched (nothing was committed). -/
def update_with_optimistic_lock_and_relations (mgr : ModelRelationshipManager)
    (fuel : Nat) (model_name : String) (id : Nat)
    (obj_data : List (String × Value)) (sync_mode : String) (db : DB) :
    Except RepoError (Option DB) :=
  match get_by_id db model_name id with
  | none => .ok none
  | some existing_record =>
    match get_model_node mgr model_name with
    | none => .error (.data (.valueError ("Model " ++ model_name ++ " not found")))
    | some node =>
      let mn := split_fields node obj_data
      match
        (match assoc_get "updated_at" obj_data with
         | some v =>
           match v with
           | .vnull => Except.ok ()
           | v =>
             match parse_timestamp v with
             | .ok expected_timestamp =>
               if existing_record.updated_at ≠ expected_timestamp then
                 Except.error RepoError.conflict
               else Except.ok ()
             | .error e => Except.error (RepoError.data e)
         | none => Except.ok ())
      with
      | .error e => .error e
      | .ok _ =>
        let db1 := db_update_row db model_name id
          (fun r => apply_main_updates node.columns r mn.1)
        match
          (if mn.2.isEmpty then Except.ok db1
           else handle_nested_relationships_update mgr fuel model_name id
             mn.2 "replace" db1)
        with
        | .error e => .error (.data e)
        | .ok db2 =>
          .ok (some (db_update_row db2 model_name id
            (fun r => { r with updated_at := db2.now })))

/-- The inner collect_dependents closure of
ModelRelationshipManager.get_model_dependents (model_relationship_manager.py
lines 444-452): walk the reverse adjacency, adding the source model of
every incoming edge before recursing into it; the visited set stops the
recursion, fuel bounds the embedding.  The accumulator is (dependents,
visited) in insertion order. -/
def collect_dependents (mgr : ModelRelationshipManager) :
    Nat → String → List String × List String → List String × List String
  | 0, _, acc => acc
  | fuel + 1, node, acc =>
    if node ∈ acc.2 then acc
    else
      (get_incoming_edges mgr node).foldl
        (fun acc e =>
          collect_dependents mgr fuel e.source_model
            (if e.source_model ∈ acc.1 then acc.1
             else acc.1 ++ [e.source_model], acc.2))
        (acc.1, acc.2 ++ [node])

/-- ModelRelationshipManager.get_model_dependents (lines 431-455) behind
the model_utils wrapper (model_utils.py lines 125-136): every model that
transitively references the given one. -/
def get_model_dependents (mgr : ModelRelationshipManager)
    (model_name : String) : List String :=
  (collect_dependents mgr (mgr.nodes.length + mgr.edges.length + 1)
    model_name ([], [])).1

/-- _get_dependent_records (repository_impl.py lines 1109-1115): a stub —
"This would need to be implemented based on the specific foreign key
relationships" — that ignores the foreign keys and always returns the
empty list. -/
def get_dependent_records (db : DB) (dependent_model : String)
    (parent_id : Nat) : List Row :=
  []

/-- _hard_delete_with_cascade (lines 982-997): for every dependent model
that is registered (get_model_class, line 989), recursively hard-delete the
records _get_dependent_records reports, then remove the record itself from
its table (await db.delete, line 997). -/
def hard_delete_with_cascade (mgr : ModelRelationshipManager) :
    Nat → String → Row → DB → DB
  | 0, _, _, db => db
  | fuel + 1, model_name, record, db =>
    let db1 := (get_model_dependents mgr model_name).foldl
      (fun db dependent_model_name =>
        if assoc_mem dependent_model_name mgr.nodes then
          (get_dependent_records db dependent_model_name record.id).foldl
            (fun db dependent_record =>
              hard_delete_with_cascade mgr fuel dependent_model_name
                dependent_record db) db
        else db) db
    db_set_table db1 model_name
      ((db_table db1 model_name).filter (fun r => !(r.id == record.id)))

/-- _soft_delete_with_cascade (lines 999-1015): the same dependent walk,
then record.deleted_at = utcnow() on the record itself (lines 1014-1015). -/
def soft_delete_with_cascade (mgr : ModelRelationshipManager) :
    Nat → String → Row → DB → DB
  | 0, _, _, db => db
  | fuel + 1, model_name, record, db =>
    let db1 := (get_model_dependents mgr model_name).foldl
      (fun db dependent_model_name =>
        if assoc_mem dependent_model_name mgr.nodes then
          (get_dependent_records db dependent_model_name record.id).foldl
            (fun db dependent_record =>
              soft_delete_with_cascade mgr fuel dependent_model_name
                dependent_record db) db
        else db) db
    db_update_row db1 model_name record.id
      (fun r => { r with deleted_at := some db.now })

/-- delete_with_cascade (lines 609-637): look the record up (respecting
soft deletion), then hard- or soft-cascade and commit; None when the record
does not exist.  The deleted record object is returned alongside the
database. -/
def delete_with_cascade (mgr : ModelRelationshipManager) (fuel : Nat)
    (model_name : String) (id : Nat) (hard_delete : Bool) (db : DB) :
    Option (DB × Row) :=
  match get_by_id db model_name id with
  | none => none
  | some record =>
    if hard_delete then
      some (hard_delete_with_cascade mgr fuel model_name record db, record)
    else
      some (soft_delete_with_cascade mgr fuel model_name record db, record)

/-- Example database for the cascade-delete scenario: User 1 and Post 2
referencing it through user_id. -/
def c1userRow : Row :=
  { id := 1, fields := [("username", Value.vstr "ann")], updated_at := 10,
    deleted_at := none }

def c1postRow : Row :=
  { id := 2, fields := [("title", Value.vstr "t"), ("user_id", Value.vint 1)],
    updated_at := 10, deleted_at := none }

def c1db : DB :=
  { tables := [("User", [c1userRow]), ("Post", [c1postRow])], links := [],
    next_id := 3, now := 50 }

/-- C1: the cascade helpers never touch dependent records, because
_get_dependent_records is a stub that always returns [] (repository_impl.py
lines 1109-1115).  On the example graph the User.posts edge is flagged
cascade_delete = true and get_model_dependents does report Post as a
dependent of User, yet a hard cascade delete of User 1 removes only the
User row and leaves the dependent Post 2 in place, and a soft cascade
delete stamps deleted_at only on User 1, leaving Post 2's deleted_at
null — contradicting the specified cascade semantics. -/
theorem c1_cascade_stub :
    get_model_dependents exMgr "User" = ["Post", "User"] ∧
    (∀ (db : DB) (dep : String) (pid : Nat),
      get_dependent_records db dep pid = []) ∧
    (match delete_with_cascade exMgr 5 "User" 1 true c1db with
     | some (db2, _) =>
       ((db_table db2 "User").map Row.id,
        (db_table db2 "Post").map (fun r : Row => (r.id, r.deleted_at)))
     | none => ([], [])) = ([], [(2, none)]) ∧
    (match delete_with_cascade exMgr 5 "User" 1 false c1db with
     | some (db2, _) =>
       ((db_table db2 "User").map (fun r : Row => (r.id, r.deleted_at)),
        (db_table db2 "Post").map (fun r : Row => (r.id, r.deleted_at)))
     | none => ([], [])) = ([(1, some 50)], [(2, none)]) :=
  ⟨rfl, fun _ _ _ => rfl, rfl, rfl⟩

/-- C3 (amended): update_with_optimistic_lock_and_relations does NOT route
the client-supplied updated_at through the 1-second-tolerance validator —
line 511 compares with exact `!=`.  For every existing record and every
payload carrying a parsable updated_at, the 409 conflict is raised if and
only if the stored updated_at differs from the parsed expected timestamp
at all; every error path returns before anything is committed (the
function returns no database on error by construction). -/
theorem c3_exact_lock_check (mgr : ModelRelationshipManager) (fuel : Nat)
    (model_name : String) (id : Nat) (obj_data : List (String × Value))
    (sync_mode : String) (db : DB) (r : Row) (node : ModelNode) (t : Int)
    (hr : get_by_id db model_name id = some r)
    (hnode : get_model_node mgr model_name = some node)
    (ht : assoc_get "updated_at" obj_data = some (Value.vtime t)) :
    (update_with_optimistic_lock_and_relations mgr fuel model_name id
        obj_data sync_mode db = .error RepoError.conflict ↔
      r.updated_at ≠ t) := by
  unfold update_with_optimistic_lock_and_relations
  rw [hr, hnode, ht]
  simp only [parse_timestamp]
  by_cases h : r.updated_at = t
  · simp only [h, ne_eq, not_true_eq_false, if_false, iff_false]
    intro hcontra
    split at hcontra
    · simp at hcontra
    · simp at hcontra
  · simp only [ne_eq, h, not_false_eq_true, if_true, iff_true]

def c3row : Row :=
  { id := 1, fields := [("username", Value.vstr "ann")],
    updated_at := 10000000, deleted_at := none }

def c3db : DB :=
  { tables := [("User", [c3row])], links := [], next_id := 2, now := 99 }

/-- C3 counterexample: a 0.5-second difference (stored 10s, expected 10.5s)
is within the validator's tolerance — validate_optimistic_lock accepts it —
yet update_with_optimistic_lock_and_relations raises the 409 conflict,
because line 511 bypasses the validator and compares exactly. -/
theorem c3_counterexample :
    update_with_optimistic_lock_and_relations exMgr 3 "User" 1
        [("updated_at", Value.vtime 10500000)] "merge" c3db =
      .error RepoError.conflict ∧
    validate_optimistic_lock 10500000 10000000 = .ok () := ⟨rfl, rfl⟩

theorem c3_exact_lock_check_witness :
    (update_with_optimistic_lock_and_relations exMgr 3 "User" 1
        [("updated_at", Value.vtime 10500000)] "merge" c3db =
      .error RepoError.conflict ↔ ((10000000 : Int) ≠ 10500000)) :=
  c3_exact_lock_check exMgr 3 "User" 1
    [("updated_at", Value.vtime 10500000)] "merge" c3db c3row exNodeUser
    10500000 rfl rfl rfl

/-- Example database for the sync-mode scenario: User 1 with one existing
Post (id 2). -/
def c4postRow : Row :=
  { id := 2, fields := [("title", Value.vstr "first"), ("user_id", Value.vint 1)],
    updated_at := 10, deleted_at := none }

def c4db : DB :=
  { tables := [("User", [c1userRow]), ("Post", [c4postRow])], links := [],
    next_id := 3, now := 99 }

/-- C4 counterexample: an update of User 1 carrying nested posts with
sync_mode = "add" nevertheless soft-deletes the pre-existing Post 2
(deleted_at = some 99) before creating the new Post 3 — line 528 hands the
hardcoded mode "replace" to the dispatcher, so "add" does not behave like
the create-path handler without deleting first. -/
theorem c4_counterexample :
    (match update_with_optimistic_lock_and_relations exMgr 3 "User" 1
        [("posts", Value.vlist [Value.vdict [("title", Value.vstr "second")]])]
        "add" c4db with
     | .ok (some db2) =>
       (db_table db2 "Post").map (fun r : Row => (r.id, r.deleted_at))
     | _ => []) = [(2, some 99), (3, none)] := rfl

/-- C4 (amended): the sync_mode argument of
update_with_optimistic_lock_and_relations is ignored — line 528 hardcodes
"replace", so the update behaves identically for every sync_mode.  The
per-type helper _update_one_to_many itself does implement "add" as the
bare create handler without deleting first, but the dispatcher never
passes that mode on. -/
theorem c4_sync_mode_ignored :
    (∀ (mgr : ModelRelationshipManager) (fuel : Nat) (model_name : String)
      (id : Nat) (obj_data : List (String × Value)) (sm1 sm2 : String)
      (db : DB),
      update_with_optimistic_lock_and_relations mgr fuel model_name id
        obj_data sm1 db =
      update_with_optimistic_lock_and_relations mgr fuel model_name id
        obj_data sm2 db) ∧
    (∀ (mgr : ModelRelationshipManager) (fuel : Nat) (model_name : String)
      (parent_id : Nat) (rel_name : String) (children_data : Value)
      (child_name : String) (db : DB),
      update_one_to_many mgr fuel model_name parent_id rel_name children_data
        child_name "add" db =
      handle_one_to_many mgr (handle_nested_relationships mgr fuel) model_name
        parent_id children_data child_name db) :=
  ⟨fun _ _ _ _ _ _ _ _ => rfl, fun _ _ _ _ _ _ _ _ => rfl⟩
